import Mathlib

/-!
Verification of the placeholder-resolution and slide-processing core of
pptx-templatex, shallowly embedded from
src/pptx_templatex/placeholder_replacer.py and
src/pptx_templatex/template_engine.py.

JSON-like Python values are modelled by the inductive type Value (numbers are
modelled as integers; the claims under study only involve integer numbers).
Python regular-expression scans are modelled by explicit character scanners
with the same leftmost-match, advance-one-on-failure semantics.
-/

namespace PPTX

/-- A JSON-like Python value: string, integer, boolean, None, list/tuple,
or dict (insertion-ordered association list with distinct keys). -/
inductive Value where
  | str (s : String)
  | int (n : Int)
  | bool (b : Bool)
  | null
  | seq (xs : List Value)
  | dict (kvs : List (String × Value))

/-- Errors raised by PlaceholderReplacer.get_nested_value, one constructor per
raise site, carrying the data interpolated into the Python message. -/
inductive PErr where
  | invalidIndexScan (content : String) (path : String)
  | cannotIndexNonList (key : String) (path : String)
  | indexOutOfRange (index : Int) (path : String)
  | invalidIndexInt (key : String) (path : String)
  | keyOnNonDict (key : String) (path : String)
  | keyNotFound (key : String) (path : String)
deriving DecidableEq

/-- The exact message string of each PlaceholderError raised by
get_nested_value. -/
def PErr.msg : PErr → String
  | .invalidIndexScan c p =>
      "Invalid array index '[" ++ c ++ "]' in path '" ++ p ++ "'"
  | .cannotIndexNonList k p =>
      "Cannot index non-list value at '" ++ k ++ "' in path '" ++ p ++ "'"
  | .indexOutOfRange i p =>
      "Index " ++ toString i ++ " out of range for path '" ++ p ++ "'"
  | .invalidIndexInt k p =>
      "Invalid array index '" ++ k ++ "' in path '" ++ p ++ "'"
  | .keyOnNonDict k p =>
      "Cannot access key '" ++ k ++ "' on non-dict value in path '" ++ p ++ "'"
  | .keyNotFound k p =>
      "Key '" ++ k ++ "' not found in path '" ++ p ++ "'"

/-- The error with the reported path erased, used to compare failures of two
textually different paths up to the path quoted in the message. -/
def PErr.core : PErr → PErr
  | .invalidIndexScan c _ => .invalidIndexScan c ""
  | .cannotIndexNonList k _ => .cannotIndexNonList k ""
  | .indexOutOfRange i _ => .indexOutOfRange i ""
  | .invalidIndexInt k _ => .invalidIndexInt k ""
  | .keyOnNonDict k _ => .keyOnNonDict k ""
  | .keyNotFound k _ => .keyNotFound k ""

/-- The ASCII whitespace characters stripped by Python str.strip. -/
def pyWS (c : Char) : Bool :=
  c.isWhitespace || c == '\x0b' || c == '\x0c'

/-- Python str.strip on a character list: drop whitespace from both ends. -/
def stripChars (cs : List Char) : List Char :=
  ((cs.dropWhile pyWS).reverse.dropWhile pyWS).reverse

/-- str.split with separator a single dot. -/
def splitOnDot : List Char → List (List Char)
  | [] => [[]]
  | c :: rest =>
    if c = '.' then [] :: splitOnDot rest
    else
      match splitOnDot rest with
      | [] => [[c]]
      | t :: ts => (c :: t) :: ts

/-- A character admissible inside the bracket content of the pre-scan regex:
neither a decimal digit nor a closing bracket. -/
def nonIdx (c : Char) : Bool := !c.isDigit && !(c == ']')

/-- The content of the first (leftmost) match of the Python regex scan
re.findall of a bracket containing one or more characters that are neither
digits nor closing brackets.  get_nested_value only uses invalid_indices[0]
and the emptiness of the list, so the first match suffices. -/
def firstInvalid : List Char → Option (List Char)
  | [] => none
  | c :: rest =>
    if c = '[' then
      let run := rest.takeWhile nonIdx
      if run.isEmpty then firstInvalid rest
      else if (rest.dropWhile nonIdx).head? = some ']' then some run
      else firstInvalid rest
    else firstInvalid rest

/-- Fuel-indexed model of re.sub rewriting every all-digit bracket group
to the same group preceded by a dot.  The fuel only serves to make the
recursion structural; any fuel of at least the list length gives the
scan's result. -/
def normalizeF : Nat → List Char → List Char
  | 0, cs => cs
  | _ + 1, [] => []
  | f + 1, c :: rest =>
    if c = '[' then
      let ds := rest.takeWhile Char.isDigit
      let dw := rest.dropWhile Char.isDigit
      if ds.isEmpty then c :: normalizeF f rest
      else if dw.head? = some ']' then '.' :: '[' :: (ds ++ ']' :: normalizeF f dw.tail)
      else c :: normalizeF f rest
    else c :: normalizeF f rest

/-- re.sub of an all-digit bracket group to a dot followed by the group,
applied to the whole path. -/
def normalize (cs : List Char) : List Char := normalizeF cs.length cs

/-- Numeric value of an ASCII digit character. -/
def digitVal (c : Char) : Nat := c.toNat - '0'.toNat

/-- Continuation of Python int parsing after at least one digit was read:
further digits, with single underscores allowed only between digits. -/
def parseDigitsU : Nat → List Char → Option Nat
  | acc, [] => some acc
  | acc, c :: rest =>
    if c = '_' then
      match rest with
      | c2 :: rest2 =>
          if c2.isDigit then parseDigitsU (acc * 10 + digitVal c2) rest2 else none
      | [] => none
    else if c.isDigit then parseDigitsU (acc * 10 + digitVal c) rest else none

/-- Python int parsing of an unsigned digit group: at least one digit. -/
def digitsStart : List Char → Option Nat
  | c :: rest => if c.isDigit then parseDigitsU (digitVal c) rest else none
  | [] => none

/-- Model of the Python builtin int applied to a string: surrounding
whitespace stripped, optional single sign, then digits with optional single
underscores between digits; None models a ValueError. -/
def pyInt? (cs : List Char) : Option Int :=
  let s := stripChars cs
  if s.head? = some '+' then (digitsStart s.tail).map Int.ofNat
  else if s.head? = some '-' then (digitsStart s.tail).map (fun n => -(Int.ofNat n))
  else (digitsStart s).map Int.ofNat

/-- Python dict membership plus indexing: the value of the first binding of
the key, if any. -/
def dictGet : List (String × Value) → String → Option Value
  | [], _ => none
  | (k, v) :: rest, key => if k = key then some v else dictGet rest key

/-- The segment-walking loop of get_nested_value over the already split and
normalized token list; kp is the original path quoted in every message. -/
def walkTokens (kp : String) : Value → List (List Char) → Except PErr Value
  | cur, [] => .ok cur
  | cur, tok :: rest =>
    let key := stripChars tok
    if key.isEmpty then walkTokens kp cur rest
    else
      if key.head? = some '[' ∧ key.getLast? = some ']' then
        match pyInt? (key.drop 1).dropLast with
        | none => .error (.invalidIndexInt ⟨key⟩ kp)
        | some i =>
          match cur with
          | .seq xs =>
            if i < 0 ∨ (xs.length : Int) ≤ i then
              .error (.indexOutOfRange i kp)
            else walkTokens kp (xs.getD i.toNat .null) rest
          | _ => .error (.cannotIndexNonList ⟨key⟩ kp)
      else
        match cur with
        | .dict kvs =>
          match dictGet kvs ⟨key⟩ with
          | some v => walkTokens kp v rest
          | none => .error (.keyNotFound ⟨key⟩ kp)
        | _ => .error (.keyOnNonDict ⟨key⟩ kp)

/-- PlaceholderReplacer.get_nested_value: pre-scan for invalid bracket
contents, normalize all-digit brackets, split on dots, then walk. -/
def getNested (data : Value) (keyPath : String) : Except PErr Value :=
  match firstInvalid keyPath.data with
  | some c => .error (.invalidIndexScan ⟨c⟩ keyPath)
  | none => walkTokens keyPath data (splitOnDot (normalize keyPath.data))

/-- Escape of one character inside a Python repr string literal quoted
by q (backslash, the quote, and the common control characters). -/
def escChar (q : Char) (c : Char) : List Char :=
  if c = '\\' then ['\\', '\\']
  else if c = q then ['\\', q]
  else if c = '\n' then ['\\', 'n']
  else if c = '\r' then ['\\', 'r']
  else if c = '\t' then ['\\', 't']
  else [c]

/-- Python repr of a string: single quotes unless the text holds a single
quote but no double quote. -/
def strRepr (s : String) : String :=
  let q : Char :=
    if s.data.contains '\'' && !(s.data.contains '"') then '"' else '\''
  ⟨q :: (s.data.flatMap (escChar q) ++ [q])⟩

/-- Comma-space joining, as in Python collection reprs. -/
def commaJoin : List String → String
  | [] => ""
  | [s] => s
  | s :: rest => s ++ ", " ++ commaJoin rest

mutual

/-- Python repr of a value (elements of collections print with repr). -/
def pyRepr : Value → String
  | .str s => strRepr s
  | .int n => toString n
  | .bool b => if b then "True" else "False"
  | .null => "None"
  | .seq xs => "[" ++ commaJoin (pyReprList xs) ++ "]"
  | .dict kvs => "\x7b" ++ commaJoin (pyReprKV kvs) ++ "\x7d"

/-- repr of each element of a list of values. -/
def pyReprList : List Value → List String
  | [] => []
  | v :: rest => pyRepr v :: pyReprList rest

/-- repr of each key-value binding of a dict. -/
def pyReprKV : List (String × Value) → List String
  | [] => []
  | (k, v) :: rest => (strRepr k ++ ": " ++ pyRepr v) :: pyReprKV rest

end

/-- Python str of a value, as applied to the resolved leaf in replace_text:
strings pass through, numbers print in decimal, booleans as True/False,
None as the text None, and collections via their repr. -/
def pyStr : Value → String
  | .str s => s
  | .int n => toString n
  | .bool b => if b then "True" else "False"
  | .null => "None"
  | .seq xs => pyRepr (.seq xs)
  | .dict kvs => pyRepr (.dict kvs)

/-- One piece of the scan of re.sub over the placeholder pattern: either a
literal character outside every match, or the inner text of one matched
placeholder span (the text between the double braces). -/
inductive Item where
  | lit (c : Char)
  | ph (inner : List Char)

/-- Fuel-indexed scan of the placeholder pattern of two opening braces, one
or more non-closing-brace characters, then two closing braces, with
leftmost-match and advance-one-on-failure semantics of re.sub.  Any fuel of
at least the list length gives the scan's result. -/
def tokenizeF : Nat → List Char → List Item
  | 0, cs => cs.map Item.lit
  | _ + 1, [] => []
  | f + 1, '{' :: '{' :: rest =>
    let inner := rest.takeWhile (fun c => !(c == '}'))
    if inner.isEmpty then Item.lit '{' :: tokenizeF f ('{' :: rest)
    else
      match rest.dropWhile (fun c => !(c == '}')) with
      | '}' :: '}' :: more => Item.ph inner :: tokenizeF f more
      | _ => Item.lit '{' :: tokenizeF f ('{' :: rest)
  | f + 1, c :: rest => Item.lit c :: tokenizeF f rest

/-- The decomposition of a text into literal characters and placeholder
spans, exactly as the pattern of replace_text matches it. -/
def tokenize (cs : List Char) : List Item := tokenizeF cs.length cs

/-- The error raised by replace_text: the stripped key path of the failing
placeholder together with the wrapped PlaceholderError of the resolver. -/
structure SubErr where
  keyPath : String
  inner : PErr

/-- The exact message of the PlaceholderError raised by replace_text. -/
def SubErr.msg (e : SubErr) : String :=
  "Failed to replace placeholder '\x7b\x7b" ++ e.keyPath ++ "\x7d\x7d': "
    ++ e.inner.msg

/-- Processing of the scanned items in order: literals pass through, each
placeholder's inner text is stripped and resolved, the first resolution
failure aborts the whole call exactly as the exception raised inside the
re.sub callback does. -/
def processItems (d : Value) : List Item → Except SubErr (List Char)
  | [] => .ok []
  | .lit c :: rest =>
    match processItems d rest with
    | .ok out => .ok (c :: out)
    | .error e => .error e
  | .ph inner :: rest =>
    let kp := stripChars inner
    match getNested d ⟨kp⟩ with
    | .error e => .error ⟨⟨kp⟩, e⟩
    | .ok v =>
      match processItems d rest with
      | .ok out => .ok ((pyStr v).data ++ out)
      | .error e => .error e

/-- PlaceholderReplacer.replace_text: substitute every placeholder span of
the text, or fail with the wrapped error of the first failing span. -/
def replaceText (text : String) (d : Value) : Except SubErr String :=
  match processItems d (tokenize text.data) with
  | .ok out => .ok ⟨out⟩
  | .error e => .error e

/-- Whether the pattern is a leading piece of the text. -/
def startsWithSeq : List Char → List Char → Bool
  | [], _ => true
  | _ :: _, [] => false
  | p :: ps, t :: ts => p == t && startsWithSeq ps ts

/-- Whether the pattern occurs contiguously anywhere inside the text, used
to state that an error message mentions a piece of data. -/
def containsSeq : List Char → List Char → Bool
  | pat, [] => pat.isEmpty
  | pat, c :: rest => startsWithSeq pat (c :: rest) || containsSeq pat rest

/-- One text run of a paragraph, with the font attributes read and written
by the engine; colorType 1 is the RGB color type of the document library. -/
structure Run where
  text : String
  fontName : Option String
  fontSize : Option Int
  fontBold : Option Bool
  fontItalic : Option Bool
  fontUnderline : Option Bool
  colorType : Option Nat
  colorRgb : Option Nat

/-- A paragraph is its list of runs. -/
abbrev Para := List Run

/-- A shape either carries a text frame with paragraphs or has no text. -/
inductive Shape where
  | text (paras : List Para)
  | plain

/-- A slide is its list of shapes. -/
abbrev Slide := List Shape

/-- The concatenated text of a paragraph, as paragraph.text returns it. -/
def paraTextChars (runs : Para) : List Char :=
  runs.flatMap (fun r => r.text.data)

/-- The control-character cleaning applied to replaced text: vertical tab
becomes a newline, the remaining C0 control characters except tab, newline
and carriage return are removed. -/
def cleanControl (cs : List Char) : List Char :=
  (cs.map (fun c => if c = '\x0B' then '\n' else c)).filter
    (fun c => !(c.toNat ≤ 8 || c.toNat = 12 || (14 ≤ c.toNat && c.toNat ≤ 31)))

/-- A run with only its text and an optional font name set, all other
attributes unset, as paragraph.add_run creates it before formatting. -/
def bareRun (t : String) : Run :=
  ⟨t, none, none, none, none, none, none, none⟩

/-- The single run created from the substituted text with the reference
run's formatting applied attribute by attribute (color only when the
reference color is of the RGB type and carries an RGB value). -/
def formattedRun (t : String) (ref : Option Run) : Run :=
  match ref with
  | none => ⟨t, some "Arial", none, none, none, none, none, none⟩
  | some r =>
    let rgbOk := r.colorType = some 1 ∧ r.colorRgb.isSome
    ⟨t, r.fontName, r.fontSize, r.fontBold, r.fontItalic, r.fontUnderline,
      if rgbOk then some 1 else none, if rgbOk then r.colorRgb else none⟩

/-- One paragraph of TemplateEngine._replace_placeholders_in_slide: skip
paragraphs without both brace pairs, skip (leaving the original runs) on any
substitution failure or when the text is unchanged, otherwise clear the
paragraph and emit one new run with the cleaned text and the formatting of
the first run that has a font name, else the first run, else defaults. -/
def processParagraph (d : Value) (runs : Para) : Para :=
  let fullText : String := ⟨paraTextChars runs⟩
  if !(containsSeq "\x7b\x7b".data fullText.data
        && containsSeq "\x7d\x7d".data fullText.data) then runs
  else
    match replaceText fullText d with
    | .error _ => runs
    | .ok newText =>
      if newText = fullText then runs
      else
        let cleaned : String := ⟨cleanControl newText.data⟩
        let ref : Option Run :=
          match runs.find? (fun r => r.fontName.isSome) with
          | some r => some r
          | none => runs.head?
        [formattedRun cleaned ref]

/-- TemplateEngine._replace_placeholders_in_slide over every shape that has
a text frame. -/
def replaceSlide (d : Value) (sl : Slide) : Slide :=
  sl.map (fun sh =>
    match sh with
    | .text paras => .text (paras.map (processParagraph d))
    | .plain => .plain)

/-- Insertion of a font name into the insertion-ordered model of the
Python set of defined fonts. -/
def addFont (acc : List String) (f : String) : List String :=
  if acc.contains f then acc else acc ++ [f]

/-- Whether a run contributes its font to the slide's font set: non-empty
stripped text and a defined font name. -/
def fontBearing (r : Run) : Bool :=
  !(stripChars r.text.data).isEmpty && r.fontName.isSome

/-- All runs of a slide in traversal order. -/
def slideRuns (sl : Slide) : List Run :=
  sl.flatMap (fun sh =>
    match sh with
    | .text paras => paras.flatMap (fun p => p)
    | .plain => [])

/-- The distinct defined font names of the slide in first-occurrence order,
modelling the Python set built by _normalize_fonts_in_slide. -/
def definedFonts (sl : Slide) : List String :=
  (slideRuns sl).foldl
    (fun acc r =>
      match r.fontName with
      | some f => if !(stripChars r.text.data).isEmpty then addFont acc f else acc
      | none => acc)
    []

/-- One paragraph of _normalize_fonts_in_slide: skipped when its stripped
text is empty, otherwise every run without a font name receives the font of
the first run with non-empty stripped text and a defined font name, else the
slide-level default. -/
def normPara (dflt : String) (runs : Para) : Para :=
  if (stripChars (paraTextChars runs)).isEmpty then runs
  else
    let ref : String :=
      match runs.find? fontBearing with
      | some r => r.fontName.getD dflt
      | none => dflt
    runs.map (fun r =>
      if r.fontName.isNone then
        ⟨r.text, some ref, r.fontSize, r.fontBold, r.fontItalic,
          r.fontUnderline, r.colorType, r.colorRgb⟩
      else r)

/-- TemplateEngine._normalize_fonts_in_slide.  The Python default font is
slide_fonts.pop(), an arbitrary element of the set; the choice is modelled
by the parameter pick applied to the collected font list, with the fixed
fallback for a slide defining no fonts. -/
def normalizeFonts (pick : List String → String) (sl : Slide) : Slide :=
  let fonts := definedFonts sl
  let dflt := if fonts.isEmpty then "Meiryo UI" else pick fonts
  sl.map (fun sh =>
    match sh with
    | .text paras => .text (paras.map (normPara dflt))
    | .plain => .plain)

/-- One slide-configuration entry.  Entries are modelled as records; a
missing src_page key is modelled by none.  The replace_texts value defaults
to an empty dict in the Python and is only applied when truthy. -/
structure SlideCfg where
  srcPage : Option Int
  replaceTexts : Value

/-- Python truthiness of a value, deciding whether replace_texts is applied. -/
def isTruthy : Value → Bool
  | .str s => !s.isEmpty
  | .int n => !(n == 0)
  | .bool b => b
  | .null => false
  | .seq xs => !xs.isEmpty
  | .dict kvs => !kvs.isEmpty

/-- The fatal configuration errors of TemplateEngine.process, one
constructor per raise site of the slide loop. -/
inductive TErr where
  | missingSrcPage (idx : Nat)
  | invalidSrcPage (sp : Int) (idx : Nat)
  | srcPageExceeds (sp : Int) (idx : Nat) (count : Nat)
deriving DecidableEq

/-- The exact message of each TemplateError of the slide loop. -/
def TErr.msg : TErr → String
  | .missingSrcPage idx =>
      "Slide config at index " ++ toString idx ++ " missing 'src_page'"
  | .invalidSrcPage sp idx =>
      "Invalid src_page " ++ toString sp ++ " at index " ++ toString idx
        ++ ": must be positive integer"
  | .srcPageExceeds sp idx n =>
      "src_page " ++ toString sp ++ " at index " ++ toString idx
        ++ " exceeds template slides count (" ++ toString n ++ ")"

/-- The slide loop of TemplateEngine.process from a given entry index:
validate each entry, copy the template slide (slide copying is modelled as
taking the template slide itself), normalize fonts, substitute when
replace_texts is truthy, normalize fonts again.  The first invalid entry
aborts the whole call. -/
def processGo (pick : List String → String) (template : List Slide) :
    Nat → List SlideCfg → Except TErr (List Slide)
  | _, [] => .ok []
  | idx, cfg :: rest =>
    match cfg.srcPage with
    | none => .error (.missingSrcPage idx)
    | some sp =>
      if sp < 1 then .error (.invalidSrcPage sp idx)
      else if (template.length : Int) < sp then
        .error (.srcPageExceeds sp idx template.length)
      else
        let copied := template.getD (sp - 1).toNat []
        let s1 := normalizeFonts pick copied
        let s2 := if isTruthy cfg.replaceTexts then replaceSlide cfg.replaceTexts s1
                  else s1
        let s3 := normalizeFonts pick s2
        match processGo pick template (idx + 1) rest with
        | .ok out => .ok (s3 :: out)
        | .error e => .error e

/-- TemplateEngine.process on an already-loaded configuration: the produced
slide list is saved to the output file only when every entry succeeds, so a
returned error means no output file is written. -/
def process (pick : List String → String) (template : List Slide)
    (cfgs : List SlideCfg) : Except TErr (List Slide) :=
  processGo pick template 0 cfgs

/-- A path segment as the specification describes key paths: a field name
or a sequence index, the index given by its bracket digit text. -/
inductive Seg where
  | fld (name : String)
  | idx (ds : String)

/-- Numeric value of a digit string. -/
def digitsToNat (ds : List Char) : Nat :=
  ds.foldl (fun a c => a * 10 + digitVal c) 0

/-- A segment expressible in the surface path syntax: a field name is
non-empty and free of separators, brackets and whitespace; an index is a
non-empty string of decimal digits. -/
def GoodSeg : Seg → Prop
  | .fld n => n.data ≠ [] ∧ ∀ c ∈ n.data,
      c ≠ '.' ∧ c ≠ '[' ∧ c ≠ ']' ∧ pyWS c = false
  | .idx ds => ds.data ≠ [] ∧ ∀ c ∈ ds.data, c.isDigit = true

/-- The specification-side manual walk of the tree, segment by segment from
the root: a field segment looks the key up in a mapping, an index segment
takes the element of a sequence, anything else fails. -/
def walkSpec : Value → List Seg → Option Value
  | v, [] => some v
  | .dict kvs, .fld k :: rest =>
    match dictGet kvs k with
    | some v => walkSpec v rest
    | none => none
  | _, .fld _ :: _ => none
  | .seq xs, .idx ds :: rest =>
    match xs[digitsToNat ds.data]? with
    | some v => walkSpec v rest
    | none => none
  | _, .idx _ :: _ => none

/-- The surface text of one segment: the field name itself, or the index
digits in brackets. -/
def segChars : Seg → List Char
  | .fld n => n.data
  | .idx ds => '[' :: (ds.data ++ [']'])

/-- The canonical dotted surface path of a segment list: segments joined by
single dots, so indices take their dotted bracket form. -/
def renderSegs : List Seg → List Char
  | [] => []
  | [s] => segChars s
  | s :: s2 :: rest => segChars s ++ '.' :: renderSegs (s2 :: rest)

/-! Helper lemmas on the character scanners. -/

theorem dropWhileLenLe (p : Char → Bool) :
    (l : List Char) → (l.dropWhile p).length ≤ l.length
  | [] => Nat.le_refl _
  | c :: rest => by
    rw [List.dropWhile]
    cases p c with
    | true => simpa using Nat.le_succ_of_le (dropWhileLenLe p rest)
    | false => simp

theorem takeWhileNilOfHead (p : Char → Bool) (l : List Char)
    (h : ∀ c, l.head? = some c → p c = false) : l.takeWhile p = [] := by
  cases l with
  | nil => rfl
  | cons c rest => simp [List.takeWhile_cons, h c rfl]

theorem dropWhileAllFalse (p : Char → Bool) :
    (l : List Char) → (∀ c ∈ l, p c = false) → l.dropWhile p = l
  | [], _ => rfl
  | c :: rest, h => by
    simp [List.dropWhile_cons, h c (List.mem_cons_self c rest)]

theorem takeWhileAppend (p : Char → Bool) :
    ∀ (a b : List Char), (∀ c ∈ a, p c = true) →
      (∀ c, b.head? = some c → p c = false) →
      (a ++ b).takeWhile p = a ∧ (a ++ b).dropWhile p = b
  | [], b, _, hb => by
    constructor
    · exact takeWhileNilOfHead p b hb
    · cases b with
      | nil => rfl
      | cons c rest => simp [List.dropWhile_cons, hb c rfl]
  | c :: a, b, ha, hb => by
    have hc : p c = true := ha c (List.mem_cons_self c a)
    have ih := takeWhileAppend p a b (fun d hd => ha d (List.mem_cons_of_mem c hd)) hb
    simp [List.takeWhile_cons, List.dropWhile_cons, hc, ih.1, ih.2]

theorem digitNotWS (c : Char) (h : c.isDigit = true) : pyWS c = false := by
  cases hw : pyWS c with
  | false => rfl
  | true =>
    exfalso
    simp only [pyWS, Char.isWhitespace, Bool.or_eq_true, decide_eq_true_eq,
      beq_iff_eq, or_assoc] at hw
    rcases hw with h1 | h1 | h1 | h1 | h1 | h1 <;>
      (subst h1; exact absurd h (by decide))

theorem digitNotSep (c : Char) (h : c.isDigit = true) :
    c ≠ '.' ∧ c ≠ '[' ∧ c ≠ ']' := by
  refine ⟨?_, ?_, ?_⟩ <;> (intro hc; subst hc; exact absurd h (by decide))

theorem stripNoWS (cs : List Char) (h : ∀ c ∈ cs, pyWS c = false) :
    stripChars cs = cs := by
  unfold stripChars
  rw [dropWhileAllFalse pyWS cs h, dropWhileAllFalse, List.reverse_reverse]
  intro c hc
  exact h c (List.mem_reverse.mp hc)

theorem splitOnDotNeNil : ∀ cs, splitOnDot cs ≠ []
  | [] => by simp [splitOnDot]
  | c :: rest => by
    unfold splitOnDot
    by_cases hc : c = '.'
    · simp [hc]
    · simp only [hc, if_false]
      cases splitOnDot rest <;> simp

theorem splitOnDotDot (b : List Char) : splitOnDot ('.' :: b) = [] :: splitOnDot b := by
  simp [splitOnDot]

theorem splitOnDotAppend :
    ∀ (a b : List Char) (hd : List Char) (tl : List (List Char)),
      (∀ c ∈ a, c ≠ '.') →
      splitOnDot b = hd :: tl → splitOnDot (a ++ b) = (a ++ hd) :: tl
  | [], b, hd, tl, _, hb => by simpa using hb
  | c :: a, b, hd, tl, ha, hb => by
    have hc : c ≠ '.' := ha c (List.mem_cons_self c a)
    have ih := splitOnDotAppend a b hd tl
      (fun d hd2 => ha d (List.mem_cons_of_mem c hd2)) hb
    show splitOnDot (c :: (a ++ b)) = _
    unfold splitOnDot
    simp only [hc, if_false, ih, List.cons_append]

theorem splitOnDotNoDot (a : List Char) (h : ∀ c ∈ a, c ≠ '.') :
    splitOnDot a = [a] := by
  have := splitOnDotAppend a [] [] [] h (by simp [splitOnDot])
  simpa using this

theorem normalizeFCongr :
    ∀ (f g : Nat) (cs : List Char), cs.length ≤ f → cs.length ≤ g →
      normalizeF f cs = normalizeF g cs
  | 0, g, cs, h1, _ => by
    have hcs : cs = [] := List.eq_nil_of_length_eq_zero (Nat.le_zero.mp h1)
    subst hcs; cases g <;> rfl
  | _ + 1, g, cs, h1, h2 => by
    rename_i f
    cases cs with
    | nil => cases g <;> rfl
    | cons c rest =>
      cases g with
      | zero => simp at h2
      | succ g =>
        have hr : rest.length ≤ f := by simpa using h1
        have hrg : rest.length ≤ g := by simpa using h2
        have htl : ((rest.dropWhile Char.isDigit).tail).length ≤ rest.length := by
          have h3 := dropWhileLenLe Char.isDigit rest
          have h4 : ((rest.dropWhile Char.isDigit).tail).length
              ≤ (rest.dropWhile Char.isDigit).length := by
            cases rest.dropWhile Char.isDigit <;> simp
          exact Nat.le_trans h4 h3
        simp only [normalizeF]
        split_ifs with hc hds hdw
        · rw [normalizeFCongr f g rest hr hrg]
        · rw [normalizeFCongr f g (rest.dropWhile Char.isDigit).tail
            (Nat.le_trans htl hr) (Nat.le_trans htl hrg)]
        · rw [normalizeFCongr f g rest hr hrg]
        · rw [normalizeFCongr f g rest hr hrg]

theorem normalizeConsNe (c : Char) (cs : List Char) (hc : c ≠ '[') :
    normalize (c :: cs) = c :: normalize cs := by
  show normalizeF (cs.length + 1) (c :: cs) = _
  simp only [normalizeF, if_neg hc]
  rfl

theorem normalizeBracket (ds more : List Char) (h1 : ds ≠ [])
    (h2 : ∀ c ∈ ds, c.isDigit = true) :
    normalize ('[' :: (ds ++ ']' :: more)) = '.' :: '[' :: (ds ++ ']' :: normalize more) := by
  have hhd : ∀ c, (']' :: more).head? = some c → c.isDigit = false := by
    intro c hc
    simp only [List.head?_cons, Option.some.injEq] at hc
    subst hc; decide
  obtain ⟨ht, hd⟩ := takeWhileAppend Char.isDigit ds (']' :: more) h2 hhd
  have hbool : ds.isEmpty = false := by
    cases ds with
    | nil => exact absurd rfl h1
    | cons => rfl
  show normalizeF ((ds ++ ']' :: more).length + 1) ('[' :: (ds ++ ']' :: more)) = _
  simp only [normalizeF, if_pos rfl, ht, hd, hbool, Bool.false_eq_true, if_false,
    List.head?_cons, if_true, List.tail_cons]
  rw [normalizeFCongr (ds ++ ']' :: more).length more.length more
    (by simp only [List.length_append, List.length_cons]; omega) (Nat.le_refl _)]
  rfl

theorem normalizeBracketStop (cs : List Char)
    (h : ∀ c, cs.head? = some c → c.isDigit = false) :
    normalize ('[' :: cs) = '[' :: normalize cs := by
  have ht : cs.takeWhile Char.isDigit = [] := takeWhileNilOfHead _ _ h
  show normalizeF (cs.length + 1) ('[' :: cs) = _
  simp only [normalizeF, if_pos rfl, ht, List.isEmpty_nil, if_true]
  rfl

theorem normalizeAppendNB :
    ∀ (a b : List Char), (∀ c ∈ a, c ≠ '[') → normalize (a ++ b) = a ++ normalize b
  | [], _, _ => by simp
  | c :: a, b, h => by
    rw [List.cons_append, normalizeConsNe c (a ++ b) (h c (List.mem_cons_self c a)),
      normalizeAppendNB a b (fun d hd => h d (List.mem_cons_of_mem c hd)),
      List.cons_append]

theorem firstInvalidConsNe (c : Char) (cs : List Char) (hc : c ≠ '[') :
    firstInvalid (c :: cs) = firstInvalid cs := by
  simp only [firstInvalid, if_neg hc]

theorem firstInvalidBracketStop (cs : List Char)
    (h : ∀ c, cs.head? = some c → nonIdx c = false) :
    firstInvalid ('[' :: cs) = firstInvalid cs := by
  have ht : cs.takeWhile nonIdx = [] := takeWhileNilOfHead _ _ h
  simp only [firstInvalid, if_pos rfl, ht, List.isEmpty_nil, if_true]

theorem firstInvalidAppendNB :
    ∀ (a b : List Char), (∀ c ∈ a, c ≠ '[') →
      firstInvalid (a ++ b) = firstInvalid b
  | [], _, _ => by simp
  | c :: a, b, h => by
    rw [List.cons_append, firstInvalidConsNe c (a ++ b) (h c (List.mem_cons_self c a)),
      firstInvalidAppendNB a b (fun d hd => h d (List.mem_cons_of_mem c hd))]

theorem firstInvalidSome :
    ∀ (cs run : List Char), firstInvalid cs = some run →
      run ≠ [] ∧ ∀ c ∈ run, nonIdx c = true
  | [], run, h => by simp [firstInvalid] at h
  | c :: rest, run, h => by
    by_cases hc : c = '['
    · subst hc
      by_cases hds : (rest.takeWhile nonIdx).isEmpty = true
      · rw [show firstInvalid ('[' :: rest) = firstInvalid rest from by
          simp only [firstInvalid, if_pos rfl, hds, if_true]] at h
        exact firstInvalidSome rest run h
      · by_cases hdw : (rest.dropWhile nonIdx).head? = some ']'
        · rw [show firstInvalid ('[' :: rest) = some (rest.takeWhile nonIdx) from by
            simp only [firstInvalid, if_pos rfl, if_neg hds, if_pos hdw]
            rw [if_pos trivial]] at h
          obtain rfl : rest.takeWhile nonIdx = run := by
            simpa using h
          refine ⟨?_, fun c hc2 => List.mem_takeWhile_imp hc2⟩
          intro hnil
          rw [hnil] at hds
          exact hds rfl
        · rw [show firstInvalid ('[' :: rest) = firstInvalid rest from by
            simp only [firstInvalid, if_pos rfl, if_neg hds, if_neg hdw]
            rw [if_pos trivial]] at h
          exact firstInvalidSome rest run h
    · rw [firstInvalidConsNe c rest hc] at h
      exact firstInvalidSome rest run h

theorem digitNotSign (c : Char) (h : c.isDigit = true) : c ≠ '+' ∧ c ≠ '-' := by
  constructor <;> (intro hc; subst hc; exact absurd h (by decide))

theorem parseDigitsUAll :
    ∀ (ds : List Char) (acc : Nat), (∀ c ∈ ds, c.isDigit = true) →
      parseDigitsU acc ds = some (ds.foldl (fun a c => a * 10 + digitVal c) acc)
  | [], _, _ => rfl
  | c :: rest, acc, h => by
    have hc : c.isDigit = true := h c (List.mem_cons_self c rest)
    have hne : c ≠ '_' := by intro h2; subst h2; exact absurd hc (by decide)
    rw [show parseDigitsU acc (c :: rest) = parseDigitsU (acc * 10 + digitVal c) rest from by
      rw [parseDigitsU.eq_def]
      simp only [if_neg hne, hc, if_true]]
    rw [List.foldl_cons]
    exact parseDigitsUAll rest _ (fun d hd => h d (List.mem_cons_of_mem c hd))

theorem digitsStartAll (ds : List Char) (h1 : ds ≠ [])
    (h2 : ∀ c ∈ ds, c.isDigit = true) :
    digitsStart ds = some (digitsToNat ds) := by
  cases ds with
  | nil => exact absurd rfl h1
  | cons c rest =>
    have hc : c.isDigit = true := h2 c (List.mem_cons_self c rest)
    simp only [digitsStart, hc, if_true,
      parseDigitsUAll rest _ (fun d hd => h2 d (List.mem_cons_of_mem c hd)),
      digitsToNat, List.foldl_cons, Nat.zero_mul, Nat.zero_add]

theorem pyIntDigits (ds : List Char) (h1 : ds ≠ [])
    (h2 : ∀ c ∈ ds, c.isDigit = true) :
    pyInt? ds = some (Int.ofNat (digitsToNat ds)) := by
  have hs : stripChars ds = ds := stripNoWS ds (fun c hc => digitNotWS c (h2 c hc))
  cases ds with
  | nil => exact absurd rfl h1
  | cons c rest =>
    have hc : c.isDigit = true := h2 c (List.mem_cons_self c rest)
    obtain ⟨hp, hm⟩ := digitNotSign c hc
    simp only [pyInt?, hs, List.head?_cons, List.tail_cons]
    rw [if_neg (by simpa using hp), if_neg (by simpa using hm),
      digitsStartAll (c :: rest) h1 h2]
    rfl

theorem pyIntNegDigits (ds : List Char) (h1 : ds ≠ [])
    (h2 : ∀ c ∈ ds, c.isDigit = true) :
    pyInt? ('-' :: ds) = some (-(Int.ofNat (digitsToNat ds))) := by
  have hs : stripChars ('-' :: ds) = '-' :: ds := by
    refine stripNoWS _ ?_
    intro c hc
    rcases List.mem_cons.mp hc with rfl | hmem
    · rfl
    · exact digitNotWS c (h2 c hmem)
  simp only [pyInt?, hs, List.head?_cons, List.tail_cons]
  rw [if_neg (by decide : ¬((some '-' : Option Char) = some '+')), if_pos trivial,
    digitsStartAll ds h1 h2]
  rfl

theorem listNotEmptyFalse (l : List Char) (h : l ≠ []) : l.isEmpty = false := by
  cases l with
  | nil => exact absurd rfl h
  | cons => rfl

theorem walkTokensSkipEmpty (kp : String) (cur : Value) (rest : List (List Char)) :
    walkTokens kp cur ([] :: rest) = walkTokens kp cur rest := rfl

theorem walkTokensFldStep (kp : String) (kvs : List (String × Value)) (n : String)
    (rest : List (List Char)) (h1 : n.data ≠ [])
    (h2 : ∀ c ∈ n.data, c ≠ '[' ∧ pyWS c = false) :
    walkTokens kp (.dict kvs) (n.data :: rest) =
      (match dictGet kvs n with
       | some v => walkTokens kp v rest
       | none => .error (.keyNotFound n kp)) := by
  have hstrip : stripChars n.data = n.data := stripNoWS _ (fun c hc => (h2 c hc).2)
  have hbr : ¬(n.data.head? = some '[' ∧ n.data.getLast? = some ']') := by
    rintro ⟨hh, _⟩
    cases hd : n.data with
    | nil => exact absurd hd h1
    | cons c0 t =>
      rw [hd, List.head?_cons, Option.some.injEq] at hh
      exact (h2 c0 (hd ▸ List.mem_cons_self c0 t)).1 hh
  simp only [walkTokens, hstrip, listNotEmptyFalse n.data h1, Bool.false_eq_true,
    if_false, if_neg hbr]

theorem bracketTokStrip (body : List Char) (h : ∀ c ∈ body, pyWS c = false) :
    stripChars ('[' :: (body ++ [']'])) = '[' :: (body ++ [']']) := by
  refine stripNoWS _ ?_
  intro c hc
  rcases List.mem_cons.mp hc with rfl | hm
  · rfl
  · rcases List.mem_append.mp hm with hb | hr
    · exact h c hb
    · rcases List.mem_singleton.mp hr with rfl
      rfl

theorem bracketTokLast (body : List Char) :
    ('[' :: (body ++ [']'])).getLast? = some ']' := by
  rw [show ('[' :: (body ++ [']'])) = ('[' :: body) ++ [']'] from by
    simp [List.cons_append]]
  exact List.getLast?_concat ..

theorem walkTokensIdxReduce (kp : String) (cur : Value) (body : List Char)
    (rest : List (List Char)) (hws : ∀ c ∈ body, pyWS c = false) :
    walkTokens kp cur (('[' :: (body ++ [']'])) :: rest) =
      (match pyInt? body with
       | none => .error (.invalidIndexInt ⟨'[' :: (body ++ [']'])⟩ kp)
       | some i =>
         match cur with
         | .seq xs =>
           if i < 0 ∨ (xs.length : Int) ≤ i then
             .error (.indexOutOfRange i kp)
           else walkTokens kp (xs.getD i.toNat .null) rest
         | _ => .error (.cannotIndexNonList ⟨'[' :: (body ++ [']'])⟩ kp)) := by
  have hstrip := bracketTokStrip body hws
  have hne : ('[' :: (body ++ [']'])) ≠ [] := by simp
  have hbr : ('[' :: (body ++ [']'])).head? = some '['
      ∧ ('[' :: (body ++ [']'])).getLast? = some ']' :=
    ⟨rfl, bracketTokLast body⟩
  have hdrop : (('[' :: (body ++ [']'])).drop 1).dropLast = body := by
    simp only [List.drop_succ_cons, List.drop_zero]
    exact List.dropLast_concat ..
  simp only [walkTokens, hstrip, listNotEmptyFalse _ hne, Bool.false_eq_true,
    if_false, if_pos hbr, hdrop]

theorem walkTokensIdxOk (kp : String) (xs : List Value) (body : List Char)
    (n : Nat) (rest : List (List Char)) (hws : ∀ c ∈ body, pyWS c = false)
    (hpi : pyInt? body = some (Int.ofNat n)) (hlt : n < xs.length) :
    walkTokens kp (.seq xs) (('[' :: (body ++ [']'])) :: rest)
      = walkTokens kp (xs.getD n .null) rest := by
  rw [walkTokensIdxReduce kp (.seq xs) body rest hws, hpi]
  show (if (Int.ofNat n) < 0 ∨ ((xs.length : Int) ≤ Int.ofNat n)
      then Except.error (PErr.indexOutOfRange (Int.ofNat n) kp)
      else walkTokens kp (xs.getD (Int.ofNat n).toNat .null) rest) = _
  rw [if_neg (by simp only [Int.ofNat_eq_coe]; omega)]
  rfl

theorem walkTokensIdxOut (kp : String) (xs : List Value) (body : List Char)
    (n : Nat) (rest : List (List Char)) (hws : ∀ c ∈ body, pyWS c = false)
    (hpi : pyInt? body = some (Int.ofNat n)) (hge : xs.length ≤ n) :
    walkTokens kp (.seq xs) (('[' :: (body ++ [']'])) :: rest)
      = .error (.indexOutOfRange (Int.ofNat n) kp) := by
  rw [walkTokensIdxReduce kp (.seq xs) body rest hws, hpi]
  show (if (Int.ofNat n) < 0 ∨ ((xs.length : Int) ≤ Int.ofNat n)
      then Except.error (PErr.indexOutOfRange (Int.ofNat n) kp)
      else walkTokens kp (xs.getD (Int.ofNat n).toNat .null) rest) = _
  rw [if_pos (Or.inr (by simp only [Int.ofNat_eq_coe]; omega))]

theorem walkTokensIdxNeg (kp : String) (xs : List Value) (body : List Char)
    (i : Int) (rest : List (List Char)) (hws : ∀ c ∈ body, pyWS c = false)
    (hpi : pyInt? body = some i) (hneg : i < 0) :
    walkTokens kp (.seq xs) (('[' :: (body ++ [']'])) :: rest)
      = .error (.indexOutOfRange i kp) := by
  rw [walkTokensIdxReduce kp (.seq xs) body rest hws, hpi]
  show (if i < 0 ∨ ((xs.length : Int) ≤ i)
      then Except.error (PErr.indexOutOfRange i kp)
      else walkTokens kp (xs.getD i.toNat .null) rest) = _
  rw [if_pos (Or.inl hneg)]

theorem walkTokensCore (toks : List (List Char)) :
    ∀ (cur : Value) (kp1 kp2 : String),
      (walkTokens kp1 cur toks).mapError PErr.core
        = (walkTokens kp2 cur toks).mapError PErr.core := by
  induction toks with
  | nil => intro cur kp1 kp2; rfl
  | cons tok rest ih =>
    intro cur kp1 kp2
    simp only [walkTokens]
    by_cases h1 : (stripChars tok).isEmpty = true
    · simp only [if_pos h1]
      exact ih cur kp1 kp2
    · simp only [if_neg h1]
      by_cases h2 : (stripChars tok).head? = some '['
          ∧ (stripChars tok).getLast? = some ']'
      · simp only [if_pos h2]
        cases hpi : pyInt? ((stripChars tok).drop 1).dropLast with
        | none => rfl
        | some i =>
          cases cur with
          | seq xs =>
            by_cases h3 : i < 0 ∨ (xs.length : Int) ≤ i
            · simp only [if_pos h3]; rfl
            · simp only [if_neg h3]
              exact ih _ kp1 kp2
          | str s => rfl
          | int n => rfl
          | bool b => rfl
          | null => rfl
          | dict kvs => rfl
      · simp only [if_neg h2]
        cases cur with
        | dict kvs =>
          cases hdg : dictGet kvs ⟨stripChars tok⟩ with
          | some v => simp only [hdg]; exact ih v kp1 kp2
          | none => simp only [hdg]; rfl
        | str s => rfl
        | int n => rfl
        | bool b => rfl
        | null => rfl
        | seq xs => rfl

/-- The token list that splitting the normalized canonical path yields:
one token per field, an empty token followed by the bracket token per
index (the empty token coming from the dot the normalizer inserts). -/
def segToks : List Seg → List (List Char)
  | [] => [[]]
  | [.fld n] => [n.data]
  | [.idx ds] => [[], '[' :: (ds.data ++ [']'])]
  | .fld n :: s2 :: rest => n.data :: segToks (s2 :: rest)
  | .idx ds :: s2 :: rest => [] :: ('[' :: (ds.data ++ [']'])) :: segToks (s2 :: rest)

theorem goodFldFacts (n : String) (hg : GoodSeg (.fld n)) :
    n.data ≠ [] ∧ (∀ c ∈ n.data, c ≠ '[') ∧ (∀ c ∈ n.data, c ≠ '.') := by
  obtain ⟨h1, h2⟩ := hg
  exact ⟨h1, fun c hc => (h2 c hc).2.1, fun c hc => (h2 c hc).1⟩

theorem goodIdxFacts (ds : String) (hg : GoodSeg (.idx ds)) :
    ds.data ≠ [] ∧ ∀ c ∈ ds.data, c.isDigit = true := hg

theorem idxBodyNoDot (ds : String) (hg : GoodSeg (.idx ds)) :
    ∀ c ∈ ('[' :: (ds.data ++ [']'])), c ≠ '.' := by
  intro c hc
  rcases List.mem_cons.mp hc with rfl | hm
  · decide
  · rcases List.mem_append.mp hm with hb | hr
    · exact (digitNotSep c (hg.2 c hb)).1
    · rcases List.mem_singleton.mp hr with rfl
      decide

theorem normalizeSegIdx (ds : String) (hg : GoodSeg (.idx ds)) (t : List Char) :
    normalize ('[' :: (ds.data ++ [']']) ++ t)
      = '.' :: '[' :: (ds.data ++ ']' :: normalize t) := by
  have : ('[' :: (ds.data ++ [']']) ++ t) = '[' :: (ds.data ++ ']' :: t) := by
    simp [List.cons_append, List.append_assoc]
  rw [this, normalizeBracket ds.data t hg.1 hg.2]

theorem firstInvalidSeg (s : Seg) (hg : GoodSeg s) (t : List Char) :
    firstInvalid (segChars s ++ t) = firstInvalid t := by
  cases s with
  | fld n =>
    exact firstInvalidAppendNB n.data t (goodFldFacts n hg).2.1
  | idx ds =>
    have hsplit : segChars (.idx ds) ++ t = '[' :: (ds.data ++ ']' :: t) := by
      simp [segChars, List.cons_append, List.append_assoc]
    rw [hsplit]
    have hstop : ∀ c, (ds.data ++ ']' :: t).head? = some c → nonIdx c = false := by
      intro c hc
      cases hd : ds.data with
      | nil => exact absurd hd hg.1
      | cons d dd =>
        rw [hd, List.cons_append, List.head?_cons, Option.some.injEq] at hc
        subst hc
        have hdig : d.isDigit = true := hg.2 d (hd ▸ List.mem_cons_self d dd)
        simp [nonIdx, hdig]
    rw [firstInvalidBracketStop _ hstop,
      firstInvalidAppendNB ds.data (']' :: t)
        (fun c hc => (digitNotSep c (hg.2 c hc)).2.1),
      firstInvalidConsNe ']' t (by decide)]

theorem firstInvalidRender :
    ∀ segs, (∀ s ∈ segs, GoodSeg s) → firstInvalid (renderSegs segs) = none
  | [], _ => rfl
  | [s], hg => by
    have : renderSegs [s] = segChars s ++ [] := by simp [renderSegs]
    rw [this, firstInvalidSeg s (hg s (List.mem_cons_self s []))]
    rfl
  | s :: s2 :: rest, hg => by
    show firstInvalid (segChars s ++ '.' :: renderSegs (s2 :: rest)) = none
    rw [firstInvalidSeg s (hg s (List.mem_cons_self s (s2 :: rest))),
      firstInvalidConsNe '.' _ (by decide)]
    exact firstInvalidRender (s2 :: rest)
      (fun x hx => hg x (List.mem_cons_of_mem s hx))

theorem tokensRender :
    ∀ segs, (∀ s ∈ segs, GoodSeg s) →
      splitOnDot (normalize (renderSegs segs)) = segToks segs
  | [], _ => rfl
  | [.fld n], hg => by
    obtain ⟨h1, h2, h3⟩ := goodFldFacts n (hg _ (List.mem_cons_self _ []))
    show splitOnDot (normalize n.data) = [n.data]
    rw [show normalize n.data = n.data from by
        have h0 := normalizeAppendNB n.data [] h2
        rw [show normalize ([] : List Char) = [] from rfl] at h0
        simpa using h0]
    exact splitOnDotNoDot n.data h3
  | [.idx ds], hg => by
    have hg2 := hg _ (List.mem_cons_self _ [])
    show splitOnDot (normalize ('[' :: (ds.data ++ [']']))) = _
    rw [show ('[' :: (ds.data ++ [']'])) = '[' :: (ds.data ++ [']']) ++ [] from by simp,
      normalizeSegIdx ds hg2 []]
    rw [splitOnDotDot]
    rw [show ('[' :: (ds.data ++ ']' :: normalize []))
        = '[' :: (ds.data ++ [']']) from by simp [normalize, normalizeF]]
    rw [splitOnDotNoDot _ (idxBodyNoDot ds hg2)]
    rfl
  | .fld n :: s2 :: rest, hg => by
    obtain ⟨h1, h2, h3⟩ := goodFldFacts n (hg _ (List.mem_cons_self _ _))
    have hrest : ∀ s ∈ s2 :: rest, GoodSeg s :=
      fun x hx => hg x (List.mem_cons_of_mem _ hx)
    show splitOnDot (normalize (n.data ++ '.' :: renderSegs (s2 :: rest))) = _
    rw [normalizeAppendNB n.data _ h2,
      normalizeConsNe '.' _ (by decide)]
    have ihtok := tokensRender (s2 :: rest) hrest
    have hsplit := splitOnDotDot (normalize (renderSegs (s2 :: rest)))
    cases htoks : splitOnDot (normalize (renderSegs (s2 :: rest))) with
    | nil => exact absurd htoks (splitOnDotNeNil _)
    | cons hd tl =>
      rw [htoks] at hsplit ihtok
      rw [splitOnDotAppend n.data _ [] (hd :: tl) h3 hsplit]
      rw [show segToks (Seg.fld n :: s2 :: rest) = n.data :: segToks (s2 :: rest) from rfl,
        ← ihtok, List.append_nil]
  | .idx ds :: s2 :: rest, hg => by
    have hg2 := hg _ (List.mem_cons_self _ _)
    have hrest : ∀ s ∈ s2 :: rest, GoodSeg s :=
      fun x hx => hg x (List.mem_cons_of_mem _ hx)
    show splitOnDot (normalize ('[' :: (ds.data ++ [']']) ++ '.' :: renderSegs (s2 :: rest))) = _
    rw [normalizeSegIdx ds hg2, normalizeConsNe '.' _ (by decide), splitOnDotDot]
    have ihtok := tokensRender (s2 :: rest) hrest
    cases htoks : splitOnDot (normalize (renderSegs (s2 :: rest))) with
    | nil => exact absurd htoks (splitOnDotNeNil _)
    | cons hd tl =>
      rw [htoks] at ihtok
      have hsplit : splitOnDot ('.' :: normalize (renderSegs (s2 :: rest)))
          = [] :: hd :: tl := by
        rw [splitOnDotDot, htoks]
      have := splitOnDotAppend ('[' :: (ds.data ++ [']']))
        ('.' :: normalize (renderSegs (s2 :: rest))) [] (hd :: tl)
        (idxBodyNoDot ds hg2) hsplit
      rw [show ('[' :: (ds.data ++ ']' :: '.' :: normalize (renderSegs (s2 :: rest))))
          = '[' :: (ds.data ++ [']']) ++ '.' :: normalize (renderSegs (s2 :: rest)) from by
          simp [List.cons_append, List.append_assoc], this, List.append_nil]
      show [] :: ('[' :: (ds.data ++ [']'])) :: hd :: tl
          = [] :: ('[' :: (ds.data ++ [']'])) :: segToks (s2 :: rest)
      rw [← ihtok]

theorem goodFldSide (n : String) (hg : GoodSeg (.fld n)) :
    ∀ c ∈ n.data, c ≠ '[' ∧ pyWS c = false :=
  fun c hc => ⟨(hg.2 c hc).2.1, (hg.2 c hc).2.2.2⟩

theorem goodIdxNoWS (ds : String) (hg : GoodSeg (.idx ds)) :
    ∀ c ∈ ds.data, pyWS c = false :=
  fun c hc => digitNotWS c (hg.2 c hc)

theorem walkSegToks :
    ∀ (segs : List Seg) (cur v : Value) (kp : String),
      (∀ s ∈ segs, GoodSeg s) → walkSpec cur segs = some v →
      walkTokens kp cur (segToks segs) = .ok v
  | [], cur, v, kp, _, hw => by
    simp only [walkSpec, Option.some.injEq] at hw
    subst hw
    rfl
  | [.fld n], cur, v, kp, hg, hw => by
    have hg2 : GoodSeg (.fld n) := hg _ (List.mem_cons_self _ [])
    cases cur with
    | dict kvs =>
      rw [show segToks [Seg.fld n] = [n.data] from rfl,
        walkTokensFldStep kp kvs n [] hg2.1 (goodFldSide n hg2)]
      simp only [walkSpec] at hw
      cases hdg : dictGet kvs n with
      | some v1 =>
        rw [hdg] at hw
        simp only [walkSpec, Option.some.injEq] at hw
        subst hw
        rfl
      | none => rw [hdg] at hw; exact absurd hw (by simp)
    | str s => exact absurd hw (by simp [walkSpec])
    | int m => exact absurd hw (by simp [walkSpec])
    | bool b => exact absurd hw (by simp [walkSpec])
    | null => exact absurd hw (by simp [walkSpec])
    | seq xs => exact absurd hw (by simp [walkSpec])
  | [.idx ds], cur, v, kp, hg, hw => by
    have hg2 : GoodSeg (.idx ds) := hg _ (List.mem_cons_self _ [])
    cases cur with
    | seq xs =>
      simp only [walkSpec] at hw
      cases hx : xs[digitsToNat ds.data]? with
      | some v1 =>
        rw [hx] at hw
        simp only [walkSpec, Option.some.injEq] at hw
        subst hw
        have hlt : digitsToNat ds.data < xs.length :=
          (List.getElem?_eq_some_iff.mp hx).1
        rw [show segToks [Seg.idx ds] = [[], '[' :: (ds.data ++ [']'])] from rfl,
          walkTokensSkipEmpty,
          walkTokensIdxOk kp xs ds.data (digitsToNat ds.data) []
            (goodIdxNoWS ds hg2) (pyIntDigits ds.data hg2.1 hg2.2) hlt,
          List.getD_eq_getElem?_getD, hx]
        rfl
      | none => rw [hx] at hw; exact absurd hw (by simp)
    | str s => exact absurd hw (by simp [walkSpec])
    | int m => exact absurd hw (by simp [walkSpec])
    | bool b => exact absurd hw (by simp [walkSpec])
    | null => exact absurd hw (by simp [walkSpec])
    | dict kvs => exact absurd hw (by simp [walkSpec])
  | .fld n :: s2 :: rest, cur, v, kp, hg, hw => by
    have hg2 : GoodSeg (.fld n) := hg _ (List.mem_cons_self _ _)
    have hrest : ∀ s ∈ s2 :: rest, GoodSeg s :=
      fun x hx => hg x (List.mem_cons_of_mem _ hx)
    cases cur with
    | dict kvs =>
      rw [show segToks (Seg.fld n :: s2 :: rest) = n.data :: segToks (s2 :: rest) from rfl,
        walkTokensFldStep kp kvs n _ hg2.1 (goodFldSide n hg2)]
      simp only [walkSpec] at hw
      cases hdg : dictGet kvs n with
      | some v1 =>
        rw [hdg] at hw
        exact walkSegToks (s2 :: rest) v1 v kp hrest hw
      | none => rw [hdg] at hw; exact absurd hw (by simp)
    | str s => exact absurd hw (by simp [walkSpec])
    | int m => exact absurd hw (by simp [walkSpec])
    | bool b => exact absurd hw (by simp [walkSpec])
    | null => exact absurd hw (by simp [walkSpec])
    | seq xs => exact absurd hw (by simp [walkSpec])
  | .idx ds :: s2 :: rest, cur, v, kp, hg, hw => by
    have hg2 : GoodSeg (.idx ds) := hg _ (List.mem_cons_self _ _)
    have hrest : ∀ s ∈ s2 :: rest, GoodSeg s :=
      fun x hx => hg x (List.mem_cons_of_mem _ hx)
    cases cur with
    | seq xs =>
      simp only [walkSpec] at hw
      cases hx : xs[digitsToNat ds.data]? with
      | some v1 =>
        rw [hx] at hw
        have hlt : digitsToNat ds.data < xs.length :=
          (List.getElem?_eq_some_iff.mp hx).1
        rw [show segToks (Seg.idx ds :: s2 :: rest)
            = [] :: ('[' :: (ds.data ++ [']'])) :: segToks (s2 :: rest) from rfl,
          walkTokensSkipEmpty,
          walkTokensIdxOk kp xs ds.data (digitsToNat ds.data) _
            (goodIdxNoWS ds hg2) (pyIntDigits ds.data hg2.1 hg2.2) hlt,
          List.getD_eq_getElem?_getD, hx]
        exact walkSegToks (s2 :: rest) v1 v kp hrest hw
      | none => rw [hx] at hw; exact absurd hw (by simp)
    | str s => exact absurd hw (by simp [walkSpec])
    | int m => exact absurd hw (by simp [walkSpec])
    | bool b => exact absurd hw (by simp [walkSpec])
    | null => exact absurd hw (by simp [walkSpec])
    | dict kvs => exact absurd hw (by simp [walkSpec])

theorem startsWithSelf : ∀ (pat suf : List Char), startsWithSeq pat (pat ++ suf) = true
  | [], _ => rfl
  | c :: ps, suf => by simp [startsWithSeq, startsWithSelf ps suf]

theorem containsSeqHere (pat suf : List Char) : containsSeq pat (pat ++ suf) = true := by
  cases pat with
  | nil =>
    cases suf with
    | nil => rfl
    | cons c r => simp [containsSeq, startsWithSeq]
  | cons p ps =>
    show containsSeq (p :: ps) (p :: (ps ++ suf)) = true
    simp [containsSeq, startsWithSeq, startsWithSelf ps suf]

theorem containsSeqAppend :
    ∀ (pre pat suf : List Char), containsSeq pat (pre ++ (pat ++ suf)) = true
  | [], pat, suf => containsSeqHere pat suf
  | c :: pre, pat, suf => by
    simp [containsSeq, containsSeqAppend pre pat suf, Bool.or_true]

/-- Empty-after-strip tokens are transparent to the walking loop: the token
list may be filtered down to its non-empty tokens without changing the
result. -/
theorem walkTokensFilter (kp : String) :
    ∀ (toks : List (List Char)) (cur : Value),
      walkTokens kp cur toks
        = walkTokens kp cur (toks.filter (fun t => !(stripChars t).isEmpty)) := by
  intro toks
  induction toks with
  | nil => intro cur; rfl
  | cons tok rest ih =>
    intro cur
    by_cases h1 : (stripChars tok).isEmpty = true
    · rw [show walkTokens kp cur (tok :: rest) = walkTokens kp cur rest from by
        simp only [walkTokens, if_pos h1]]
      rw [show List.filter (fun t => !(stripChars t).isEmpty) (tok :: rest)
          = List.filter (fun t => !(stripChars t).isEmpty) rest from by
        simp [List.filter_cons, h1]]
      exact ih cur
    · rw [show List.filter (fun t => !(stripChars t).isEmpty) (tok :: rest)
          = tok :: List.filter (fun t => !(stripChars t).isEmpty) rest from by
        simp [List.filter_cons, h1]]
      simp only [walkTokens]
      rw [if_neg h1, if_neg h1]
      by_cases h2 : (stripChars tok).head? = some '['
          ∧ (stripChars tok).getLast? = some ']'
      · rw [if_pos h2, if_pos h2]
        cases hpi : pyInt? ((stripChars tok).drop 1).dropLast with
        | none => rfl
        | some i =>
          cases cur with
          | seq xs =>
            by_cases h3 : i < 0 ∨ (xs.length : Int) ≤ i
            · simp only [if_pos h3]
            · simp only [if_neg h3]
              exact ih _
          | str s => rfl
          | int n => rfl
          | bool b => rfl
          | null => rfl
          | dict kvs => rfl
      · rw [if_neg h2, if_neg h2]
        cases cur with
        | dict kvs =>
          cases hdg : dictGet kvs ⟨stripChars tok⟩ with
          | some v => simp only [hdg]; exact ih v
          | none => simp only [hdg]
        | str s => rfl
        | int n => rfl
        | bool b => rfl
        | null => rfl
        | seq xs => rfl

/-! The claim theorems. -/

/-- C1: for every value tree and every key path composed only of fields that
exist in the traversed mappings and indices within range of the traversed
sequences (a path rendered from well-formed segments), get_nested_value
returns exactly the value reached by walking the tree segment by segment
from the root, with no error and no coercion of the resolved leaf. -/
theorem claim1_resolve_walks_tree (d : Value) (segs : List Seg) (v : Value)
    (hg : ∀ s ∈ segs, GoodSeg s) (hw : walkSpec d segs = some v) :
    getNested d ⟨renderSegs segs⟩ = .ok v := by
  have hfi := firstInvalidRender segs hg
  have hred : getNested d ⟨renderSegs segs⟩
      = walkTokens ⟨renderSegs segs⟩ d (splitOnDot (normalize (renderSegs segs))) := by
    unfold getNested
    rw [show (String.mk (renderSegs segs)).data = renderSegs segs from rfl, hfi]
  rw [hred, tokensRender segs hg]
  exact walkSegToks segs d v _ hg hw

/-- Witness for C1 at a concrete tree and path. -/
theorem claim1_witness :
    walkSpec (Value.dict [("user", Value.dict [("name", Value.str "Alice")])])
        [Seg.fld "user", Seg.fld "name"] = some (Value.str "Alice")
    ∧ getNested (Value.dict [("user", Value.dict [("name", Value.str "Alice")])])
        "user.name" = .ok (Value.str "Alice") := by
  constructor
  · rfl
  · exact claim1_resolve_walks_tree _ [Seg.fld "user", Seg.fld "name"] _
      (by
        intro s hs
        rcases List.mem_cons.mp hs with rfl | hs2
        · exact ⟨by decide, by decide⟩
        · rcases List.mem_cons.mp hs2 with rfl | hs3
          · exact ⟨by decide, by decide⟩
          · simp at hs3)
      rfl

/-- C9: replace_text converts resolved scalar leaves to the fixed Python
string forms: integers in decimal, booleans as True and False, null as the
text None; in particular the user name and age scenario substitutes to
the expected text. -/
theorem claim9_scalar_stringification :
    pyStr (.int 25) = "25" ∧ pyStr (.int (-3)) = "-3"
    ∧ pyStr (.bool true) = "True" ∧ pyStr (.bool false) = "False"
    ∧ pyStr .null = "None"
    ∧ replaceText "User: \x7b\x7b user.name \x7d\x7d, Age: \x7b\x7b user.age \x7d\x7d"
        (.dict [("user", .dict [("name", .str "Alice"), ("age", .int 25)])])
        = .ok "User: Alice, Age: 25" :=
  ⟨rfl, rfl, rfl, rfl, rfl, rfl⟩

/-- C10: for every tree, a key path that is empty or only whitespace and
dots resolves to the whole root tree without error, and replace_text turns
the whitespace-only placeholder into the stringification of the whole
replacements tree. -/
theorem claim10_empty_path_returns_root (d : Value) :
    getNested d "" = .ok d
    ∧ getNested d " " = .ok d
    ∧ getNested d ".." = .ok d
    ∧ replaceText "\x7b\x7b \x7d\x7d" d = .ok (pyStr d) := by
  refine ⟨rfl, rfl, rfl, ?_⟩
  show Except.ok (String.mk ((pyStr d).data ++ [])) = Except.ok (pyStr d)
  rw [List.append_nil]

/-- Reduction of get_nested_value to the token walk when the pre-scan
finds nothing. -/
theorem getNestedTokens (d : Value) (x : List Char) (h : firstInvalid x = none) :
    getNested d ⟨x⟩ = walkTokens ⟨x⟩ d (splitOnDot (normalize x)) := by
  unfold getNested
  rw [show (String.mk x).data = x from rfl, h]

theorem firstInvalidBracketNoClose (cs : List Char)
    (h : ¬((cs.dropWhile nonIdx).head? = some ']')) :
    firstInvalid ('[' :: cs) = firstInvalid cs := by
  by_cases hds : (cs.takeWhile nonIdx).isEmpty = true
  · simp only [firstInvalid, if_pos rfl, hds, if_true]
  · simp only [firstInvalid, if_pos rfl, if_neg hds, if_neg h]
    rw [if_pos trivial]

theorem attachedNoInvalid (nm : String) (ds : List Char)
    (hn : ∀ c ∈ nm.data, c ≠ '[')
    (h1 : ds ≠ []) (h2 : ∀ c ∈ ds, c.isDigit = true) :
    firstInvalid (nm.data ++ ('[' :: (ds ++ [']']))) = none := by
  rw [firstInvalidAppendNB nm.data _ hn]
  have h3 := firstInvalidSeg (.idx ⟨ds⟩) ⟨h1, h2⟩ []
  simpa [segChars] using h3

theorem attachedToks (nm : String) (ds : List Char)
    (hn1 : ∀ c ∈ nm.data, c ≠ '[') (hn2 : ∀ c ∈ nm.data, c ≠ '.')
    (h1 : ds ≠ []) (h2 : ∀ c ∈ ds, c.isDigit = true) :
    splitOnDot (normalize (nm.data ++ ('[' :: (ds ++ [']']))))
      = [nm.data, '[' :: (ds ++ [']'])] := by
  rw [normalizeAppendNB nm.data _ hn1,
    show ('[' :: (ds ++ [']'])) = '[' :: (ds ++ ']' :: []) from rfl,
    normalizeBracket ds [] h1 h2,
    show normalize ([] : List Char) = [] from rfl]
  have hsp : splitOnDot ('.' :: ('[' :: (ds ++ (']' :: []))))
      = [] :: ['[' :: (ds ++ [']'])] := by
    rw [splitOnDotDot, splitOnDotNoDot _ (idxBodyNoDot ⟨ds⟩ ⟨h1, h2⟩)]
  rw [splitOnDotAppend nm.data _ [] _ hn2 hsp, List.append_nil]

theorem negIdxNoInvalid (ds : List Char)
    (h1 : ds ≠ []) (h2 : ∀ c ∈ ds, c.isDigit = true) :
    firstInvalid ('a' :: '.' :: '[' :: ('-' :: (ds ++ [']']))) = none := by
  have hdw : ('-' :: (ds ++ [']'])).dropWhile nonIdx = ds ++ [']'] := by
    have hb : ∀ c, (ds ++ [']']).head? = some c → nonIdx c = false := by
      intro c hc
      cases hd : ds with
      | nil => exact absurd hd h1
      | cons d dd =>
        rw [hd, List.cons_append, List.head?_cons, Option.some.injEq] at hc
        subst hc
        simp [nonIdx, h2 d (hd ▸ List.mem_cons_self d dd)]
    have := takeWhileAppend nonIdx ['-'] (ds ++ [']']) (by decide) hb
    simpa using this.2
  have hhd : ¬((('-' :: (ds ++ [']'])).dropWhile nonIdx).head? = some ']') := by
    rw [hdw]
    cases hd : ds with
    | nil => exact absurd hd h1
    | cons d dd =>
      rw [List.cons_append, List.head?_cons]
      intro hcon
      rw [Option.some.injEq] at hcon
      have := h2 ']' (by rw [hd]; exact hcon ▸ List.mem_cons_self d dd)
      exact absurd this (by decide)
  rw [firstInvalidConsNe 'a' _ (by decide), firstInvalidConsNe '.' _ (by decide),
    firstInvalidBracketNoClose _ hhd, firstInvalidConsNe '-' _ (by decide),
    firstInvalidAppendNB ds _ (fun c hc => (digitNotSep c (h2 c hc)).2.1),
    firstInvalidConsNe ']' _ (by decide)]
  rfl

theorem negIdxToks (ds : List Char)
    (h2 : ∀ c ∈ ds, c.isDigit = true) :
    splitOnDot (normalize ('a' :: '.' :: '[' :: ('-' :: (ds ++ [']']))))
      = [['a'], '[' :: (('-' :: ds) ++ [']'])] := by
  have hstop : ∀ c, ('-' :: (ds ++ [']'])).head? = some c → c.isDigit = false := by
    intro c hc
    rw [List.head?_cons, Option.some.injEq] at hc
    subst hc
    decide
  rw [normalizeConsNe 'a' _ (by decide), normalizeConsNe '.' _ (by decide),
    normalizeBracketStop _ hstop, normalizeConsNe '-' _ (by decide),
    normalizeAppendNB ds _ (fun c hc => (digitNotSep c (h2 c hc)).2.1),
    normalizeConsNe ']' _ (by decide),
    show normalize ([] : List Char) = [] from rfl]
  have hnodot : ∀ c ∈ ('[' :: ('-' :: (ds ++ (']' :: [])))), c ≠ '.' := by
    intro c hc
    rcases List.mem_cons.mp hc with rfl | hm
    · decide
    · rcases List.mem_cons.mp hm with rfl | hm2
      · decide
      · rcases List.mem_append.mp hm2 with hb | hr
        · exact (digitNotSep c (h2 c hb)).1
        · rcases List.mem_singleton.mp hr with rfl
          decide
  have hsp : splitOnDot ('.' :: ('[' :: ('-' :: (ds ++ (']' :: [])))))
      = [] :: ['[' :: ('-' :: (ds ++ (']' :: [])))] := by
    rw [splitOnDotDot, splitOnDotNoDot _ hnodot]
  have := splitOnDotAppend ['a'] ('.' :: ('[' :: ('-' :: (ds ++ (']' :: []))))) []
    ['[' :: ('-' :: (ds ++ (']' :: [])))] (by decide) hsp
  simpa using this

/-- C2 counterexample: a bracket with mixed digit and non-digit content is
not rejected by the pre-scan as the claim states; the call fails later with
a missing-key error instead, for both the [1a] and the [1.5] shapes. -/
theorem claim2_counterexample :
    getNested (.dict [("a", .seq [.int 1, .int 2])]) "a[1a]"
      = .error (.keyNotFound "a[1a]" "a[1a]")
    ∧ getNested (.dict [("a", .seq [.int 1, .int 2])]) "a[1.5]"
      = .error (.keyNotFound "a[1" "a[1.5]")
    ∧ ∀ c p2 : String, PErr.keyNotFound "a[1a]" "a[1a]" ≠ PErr.invalidIndexScan c p2 :=
  ⟨rfl, rfl, fun _ _ h => PErr.noConfusion h⟩

/-- C2 amended: a key path whose first pre-scan match is a bracket whose
content holds no digit and no closing bracket at all fails immediately,
before and independently of any tree walking, with the invalid-array-index
error naming that first bracket content verbatim; bracket contents mixing
digits with other characters are not caught by this pre-scan. -/
theorem claim2_prescan_rejects_digitless_brackets
    (d1 d2 : Value) (p : String) (run : List Char)
    (h : firstInvalid p.data = some run) :
    getNested d1 p = .error (.invalidIndexScan ⟨run⟩ p)
    ∧ getNested d2 p = .error (.invalidIndexScan ⟨run⟩ p)
    ∧ run ≠ [] ∧ (∀ c ∈ run, c.isDigit = false ∧ c ≠ ']')
    ∧ containsSeq ('[' :: (run ++ [']']))
        ((PErr.invalidIndexScan ⟨run⟩ p).msg).data = true := by
  obtain ⟨hne, hrun⟩ := firstInvalidSome p.data run h
  refine ⟨?_, ?_, hne, ?_, ?_⟩
  · unfold getNested; rw [h]
  · unfold getNested; rw [h]
  · intro c hc
    have h3 := hrun c hc
    simp only [nonIdx, Bool.and_eq_true, Bool.not_eq_eq_eq_not, Bool.not_true,
      beq_eq_false_iff_ne] at h3
    exact ⟨h3.1, h3.2⟩
  · have hmsg : ((PErr.invalidIndexScan ⟨run⟩ p).msg).data
        = "Invalid array index '".data
          ++ (('[' :: (run ++ [']']))
            ++ ("' in path '".data ++ (p.data ++ "'".data))) := by
      simp [PErr.msg, String.data_append, List.append_assoc]
    rw [hmsg]
    exact containsSeqAppend _ _ _

/-- Witness for C2 amended at a concrete all-letter bracket. -/
theorem claim2_witness :
    getNested (.dict [("a", .seq [.int 1])]) "a[abc]"
      = .error (.invalidIndexScan "abc" "a[abc]") :=
  (claim2_prescan_rejects_digitless_brackets
    (.dict [("a", .seq [.int 1])]) .null "a[abc]" "abc".data rfl).1

/-- C3 counterexample: a negative index written in the attached bracket form
a[-1] is not recognized as an index at all; the whole token is treated as a
field name and the call fails with a missing-key error, not an out-of-range
error naming the index. -/
theorem claim3_counterexample :
    getNested (.dict [("a", .seq [.int 1, .int 2])]) "a[-1]"
      = .error (.keyNotFound "a[-1]" "a[-1]")
    ∧ ∀ i : Int, getNested (.dict [("a", .seq [.int 1, .int 2])]) "a[-1]"
        ≠ .error (.indexOutOfRange i "a[-1]") := by
  refine ⟨rfl, ?_⟩
  intro i h
  rw [show getNested (.dict [("a", .seq [.int 1, .int 2])]) "a[-1]"
      = Except.error (PErr.keyNotFound "a[-1]" "a[-1]") from rfl] at h
  exact PErr.noConfusion (Except.error.inj h)

/-- C3 amended: an index at least the sequence length fails out-of-range in
both the dotted and the attached bracket form, a negative index fails
out-of-range in the dotted form (the only form in which a negative index is
parsed as an index), and the out-of-range message names the offending
index. -/
theorem claim3_out_of_range (xs : List Value) (ds : List Char)
    (h1 : ds ≠ []) (h2 : ∀ c ∈ ds, c.isDigit = true) :
    (xs.length ≤ digitsToNat ds →
      getNested (.dict [("a", .seq xs)]) ⟨"a.[".data ++ ds ++ [']']⟩
        = .error (.indexOutOfRange (Int.ofNat (digitsToNat ds))
            ⟨"a.[".data ++ ds ++ [']']⟩)
      ∧ getNested (.dict [("a", .seq xs)]) ⟨"a[".data ++ ds ++ [']']⟩
        = .error (.indexOutOfRange (Int.ofNat (digitsToNat ds))
            ⟨"a[".data ++ ds ++ [']']⟩))
    ∧ (1 ≤ digitsToNat ds →
      getNested (.dict [("a", .seq xs)]) ⟨"a.[-".data ++ ds ++ [']']⟩
        = .error (.indexOutOfRange (-(Int.ofNat (digitsToNat ds)))
            ⟨"a.[-".data ++ ds ++ [']']⟩))
    ∧ ∀ (i : Int) (p : String),
      containsSeq (toString i).data ((PErr.indexOutOfRange i p).msg).data = true := by
  have hws : ∀ c ∈ ds, pyWS c = false := fun c hc => digitNotWS c (h2 c hc)
  have hsegs : ∀ s ∈ [Seg.fld "a", Seg.idx ⟨ds⟩], GoodSeg s := by
    intro s hs
    rcases List.mem_cons.mp hs with rfl | hs2
    · exact ⟨by decide, by decide⟩
    · rcases List.mem_cons.mp hs2 with rfl | hs3
      · exact ⟨h1, h2⟩
      · simp at hs3
  have hfldeq : dictGet [("a", Value.seq xs)] "a" = some (Value.seq xs) := rfl
  refine ⟨?_, ?_, ?_⟩
  · intro hge
    constructor
    · have hfd : firstInvalid ("a.[".data ++ ds ++ [']']) = none :=
        firstInvalidRender [Seg.fld "a", Seg.idx ⟨ds⟩] hsegs
      rw [getNestedTokens _ _ hfd,
        show splitOnDot (normalize ("a.[".data ++ ds ++ [']']))
          = ["a".data, [], '[' :: (ds ++ [']'])] from
          tokensRender [Seg.fld "a", Seg.idx ⟨ds⟩] hsegs,
        walkTokensFldStep _ _ "a" _ (by decide) (by decide), hfldeq]
      show walkTokens ⟨"a.[".data ++ ds ++ [']']⟩ (Value.seq xs)
          [[], '[' :: (ds ++ [']'])] = _
      rw [walkTokensSkipEmpty,
        walkTokensIdxOut _ xs ds (digitsToNat ds) [] hws
          (pyIntDigits ds h1 h2) hge]
    · have hfa : firstInvalid ("a[".data ++ ds ++ [']']) = none :=
        attachedNoInvalid "a" ds (by decide) h1 h2
      rw [getNestedTokens _ _ hfa,
        show splitOnDot (normalize ("a[".data ++ ds ++ [']']))
          = ["a".data, '[' :: (ds ++ [']'])] from
          attachedToks "a" ds (by decide) (by decide) h1 h2,
        walkTokensFldStep _ _ "a" _ (by decide) (by decide), hfldeq]
      show walkTokens ⟨"a[".data ++ ds ++ [']']⟩ (Value.seq xs)
          ['[' :: (ds ++ [']'])] = _
      rw [walkTokensIdxOut _ xs ds (digitsToNat ds) [] hws
          (pyIntDigits ds h1 h2) hge]
  · intro hpos
    have hfn : firstInvalid ("a.[-".data ++ ds ++ [']']) = none :=
      negIdxNoInvalid ds h1 h2
    have hwsn : ∀ c ∈ ('-' :: ds), pyWS c = false := by
      intro c hc
      rcases List.mem_cons.mp hc with rfl | hm
      · rfl
      · exact hws c hm
    rw [getNestedTokens _ _ hfn,
      show splitOnDot (normalize ("a.[-".data ++ ds ++ [']']))
        = [['a'], '[' :: (('-' :: ds) ++ [']'])] from negIdxToks ds h2,
      show ([['a'], '[' :: (('-' :: ds) ++ [']'])] : List (List Char))
        = ("a".data :: ['[' :: (('-' :: ds) ++ [']'])]) from rfl,
      walkTokensFldStep _ _ "a" _ (by decide) (by decide), hfldeq]
    show walkTokens ⟨"a.[-".data ++ ds ++ [']']⟩ (Value.seq xs)
        ['[' :: (('-' :: ds) ++ [']'])] = _
    rw [walkTokensIdxNeg _ xs ('-' :: ds) (-(Int.ofNat (digitsToNat ds))) [] hwsn
        (pyIntNegDigits ds h1 h2) (by simp only [Int.ofNat_eq_coe]; omega)]
  · intro i p
    have hmsg : ((PErr.indexOutOfRange i p).msg).data
        = "Index ".data ++ ((toString i).data
            ++ (" out of range for path '".data ++ (p.data ++ "'".data))) := by
      simp [PErr.msg, String.data_append, List.append_assoc]
    rw [hmsg]
    exact containsSeqAppend _ _ _

/-- Witness for C3 amended at index 5 against a three-element sequence. -/
theorem claim3_witness :
    getNested (.dict [("a", .seq [.int 1, .int 2, .int 3])]) "a[5]"
      = .error (.indexOutOfRange 5 "a[5]")
    ∧ getNested (.dict [("a", .seq [.int 1, .int 2, .int 3])]) "a.[-1]"
      = .error (.indexOutOfRange (-1) "a.[-1]") := by
  constructor
  · exact ((claim3_out_of_range [.int 1, .int 2, .int 3] "5".data
      (by decide) (by decide)).1 (by decide)).2
  · exact (claim3_out_of_range [.int 1, .int 2, .int 3] "1".data
      (by decide) (by decide)).2.1 (by decide)

/-- C5: the attached bracket form items[N] and the dotted bracket form
items.[N] resolve identically against any tree: the same value on success
and the same failure up to the path text quoted in the message; likewise
for the paths a.b[0].c and a.b.[0].c. -/
theorem claim5_bracket_forms_equivalent :
    (∀ (d : Value) (ds : List Char), ds ≠ [] → (∀ c ∈ ds, c.isDigit = true) →
      (getNested d ⟨"items[".data ++ ds ++ [']']⟩).mapError PErr.core
        = (getNested d ⟨"items.[".data ++ ds ++ [']']⟩).mapError PErr.core)
    ∧ ∀ d : Value,
      (getNested d "a.b[0].c").mapError PErr.core
        = (getNested d "a.b.[0].c").mapError PErr.core := by
  constructor
  · intro d ds h1 h2
    have hws : ∀ c ∈ ds, pyWS c = false := fun c hc => digitNotWS c (h2 c hc)
    have hsegs : ∀ s ∈ [Seg.fld "items", Seg.idx ⟨ds⟩], GoodSeg s := by
      intro s hs
      rcases List.mem_cons.mp hs with rfl | hs2
      · exact ⟨by decide, by decide⟩
      · rcases List.mem_cons.mp hs2 with rfl | hs3
        · exact ⟨h1, h2⟩
        · simp at hs3
    have hfa : firstInvalid ("items[".data ++ ds ++ [']']) = none :=
      attachedNoInvalid "items" ds (by decide) h1 h2
    have hfd : firstInvalid ("items.[".data ++ ds ++ [']']) = none :=
      firstInvalidRender [Seg.fld "items", Seg.idx ⟨ds⟩] hsegs
    have htok : (stripChars ('[' :: (ds ++ [']']))).isEmpty = false := by
      rw [bracketTokStrip ds hws]
      rfl
    rw [getNestedTokens _ _ hfa, getNestedTokens _ _ hfd,
      show splitOnDot (normalize ("items[".data ++ ds ++ [']']))
        = ["items".data, '[' :: (ds ++ [']'])] from
        attachedToks "items" ds (by decide) (by decide) h1 h2,
      show splitOnDot (normalize ("items.[".data ++ ds ++ [']']))
        = ["items".data, [], '[' :: (ds ++ [']'])] from
        tokensRender [Seg.fld "items", Seg.idx ⟨ds⟩] hsegs,
      walkTokensFilter _ ["items".data, '[' :: (ds ++ [']'])] d,
      walkTokensFilter _ ["items".data, [], '[' :: (ds ++ [']'])] d,
      show List.filter (fun t => !(stripChars t).isEmpty)
          ["items".data, '[' :: (ds ++ [']'])]
        = ["items".data, '[' :: (ds ++ [']'])] from by
        simp [List.filter_cons, htok,
          show stripChars ['i', 't', 'e', 'm', 's'] = ['i', 't', 'e', 'm', 's'] from rfl,
          show stripChars ([] : List Char) = [] from rfl],
      show List.filter (fun t => !(stripChars t).isEmpty)
          ["items".data, [], '[' :: (ds ++ [']'])]
        = ["items".data, '[' :: (ds ++ [']'])] from by
        simp [List.filter_cons, htok,
          show stripChars ['i', 't', 'e', 'm', 's'] = ['i', 't', 'e', 'm', 's'] from rfl,
          show stripChars ([] : List Char) = [] from rfl]]
    exact walkTokensCore _ d _ _
  · intro d
    calc (getNested d "a.b[0].c").mapError PErr.core
        = (walkTokens "a.b[0].c" d
            [['a'], ['b'], ['[', '0', ']'], ['c']]).mapError PErr.core := rfl
      _ = (walkTokens "a.b.[0].c" d
            [['a'], ['b'], ['[', '0', ']'], ['c']]).mapError PErr.core := by
          rw [walkTokensCore _ d "a.b[0].c" "a.b.[0].c"]
      _ = (walkTokens "a.b.[0].c" d
            (List.filter (fun t => !(stripChars t).isEmpty)
              [['a'], ['b'], [], ['[', '0', ']'], ['c']])).mapError PErr.core := rfl
      _ = (walkTokens "a.b.[0].c" d
            [['a'], ['b'], [], ['[', '0', ']'], ['c']]).mapError PErr.core := by
          rw [← walkTokensFilter]
      _ = (getNested d "a.b.[0].c").mapError PErr.core := rfl

/-- Witness for C5 at a concrete tree and index. -/
theorem claim5_witness :
    (getNested (.dict [("items", .seq [.str "x", .str "y"])])
        "items[1]").mapError PErr.core
      = (getNested (.dict [("items", .seq [.str "x", .str "y"])])
        "items.[1]").mapError PErr.core :=
  claim5_bracket_forms_equivalent.1
    (.dict [("items", .seq [.str "x", .str "y"])]) "1".data
    (by decide) (by decide)

/-- The expected output of a successful substitution, item by item:
literal characters pass through unchanged, each placeholder span is
replaced by the canonical string of its resolved value. -/
def renderItems (d : Value) : List Item → List Char
  | [] => []
  | .lit c :: rest => c :: renderItems d rest
  | .ph inner :: rest =>
    (match getNested d ⟨stripChars inner⟩ with
     | .ok v => (pyStr v).data
     | .error _ => []) ++ renderItems d rest

theorem processItemsOk (d : Value) :
    ∀ its : List Item,
      (∀ inner, Item.ph inner ∈ its → (getNested d ⟨stripChars inner⟩).isOk = true) →
      processItems d its = .ok (renderItems d its)
  | [], _ => rfl
  | .lit c :: rest, h => by
    simp only [processItems, renderItems,
      processItemsOk d rest (fun inn hm => h inn (List.mem_cons_of_mem _ hm))]
  | .ph inner :: rest, h => by
    have hok := h inner (List.mem_cons_self _ _)
    cases hg : getNested d ⟨stripChars inner⟩ with
    | error e => rw [hg] at hok; exact absurd hok (by simp [Except.isOk, Except.toBool])
    | ok v =>
      simp only [processItems, renderItems, hg,
        processItemsOk d rest (fun inn hm => h inn (List.mem_cons_of_mem _ hm))]

theorem processItemsErr (d : Value) :
    ∀ (its : List Item) (e : SubErr), processItems d its = .error e →
      ∃ inner, Item.ph inner ∈ its
        ∧ getNested d ⟨stripChars inner⟩ = .error e.inner
        ∧ e.keyPath = ⟨stripChars inner⟩
  | [], e, h => by simp [processItems] at h
  | .lit c :: rest, e, h => by
    rw [processItems] at h
    cases hr : processItems d rest with
    | ok out => rw [hr] at h; exact absurd h (by simp)
    | error e2 =>
      rw [hr] at h
      simp only [Except.error.injEq] at h
      subst h
      obtain ⟨inner, hm, hge, hkp⟩ := processItemsErr d rest e2 hr
      exact ⟨inner, List.mem_cons_of_mem _ hm, hge, hkp⟩
  | .ph inner :: rest, e, h => by
    rw [processItems] at h
    cases hg : getNested d ⟨stripChars inner⟩ with
    | error e0 =>
      rw [hg] at h
      simp only [Except.error.injEq] at h
      subst h
      exact ⟨inner, List.mem_cons_self _ _, hg, rfl⟩
    | ok v =>
      rw [hg] at h
      cases hr : processItems d rest with
      | ok out => rw [hr] at h; exact absurd h (by simp)
      | error e2 =>
        rw [hr] at h
        simp only [Except.error.injEq] at h
        subst h
        obtain ⟨inner2, hm, hge, hkp⟩ := processItemsErr d rest e2 hr
        exact ⟨inner2, List.mem_cons_of_mem _ hm, hge, hkp⟩

theorem processItemsOkInv (d : Value) :
    ∀ (its : List Item) (out : List Char), processItems d its = .ok out →
      ∀ inner, Item.ph inner ∈ its → (getNested d ⟨stripChars inner⟩).isOk = true
  | [], _, _, inner, hm => by simp at hm
  | .lit c :: rest, out, h, inner, hm => by
    rw [processItems] at h
    cases hr : processItems d rest with
    | error e => rw [hr] at h; exact absurd h (by simp)
    | ok out2 =>
      rcases List.mem_cons.mp hm with hlit | hmem
      · exact absurd hlit (by simp)
      · exact processItemsOkInv d rest out2 hr inner hmem
  | .ph inner0 :: rest, out, h, inner, hm => by
    rw [processItems] at h
    cases hg : getNested d ⟨stripChars inner0⟩ with
    | error e => rw [hg] at h; exact absurd h (by simp)
    | ok v =>
      rw [hg] at h
      cases hr : processItems d rest with
      | error e => rw [hr] at h; exact absurd h (by simp)
      | ok out2 =>
        rcases List.mem_cons.mp hm with hph | hmem
        · rcases Item.ph.inj hph with rfl
          rw [hg]
          rfl
        · exact processItemsOkInv d rest out2 hr inner hmem

/-- C4 counterexample: the error message of a failed substitution names the
placeholder with its inner path trimmed, not the exact raw placeholder
text: for the raw span with surrounding spaces, the raw text does not occur
in the message. -/
theorem claim4_counterexample :
    replaceText "\x7b\x7b missing \x7d\x7d" (.dict [])
      = .error ⟨"missing", .keyNotFound "missing" "missing"⟩
    ∧ SubErr.msg ⟨"missing", .keyNotFound "missing" "missing"⟩
      = "Failed to replace placeholder '\x7b\x7bmissing\x7d\x7d': Key 'missing' not found in path 'missing'"
    ∧ containsSeq "\x7b\x7b missing \x7d\x7d".data
        (SubErr.msg ⟨"missing", .keyNotFound "missing" "missing"⟩).data = false :=
  ⟨rfl, rfl, rfl⟩

/-- C4 amended: replace_text errors exactly when some placeholder span
fails to resolve, and the call is all-or-nothing.  When every placeholder
span of the text resolves, the call returns the text with every span
replaced by its value's string and all literal text outside spans
unchanged; when it returns an error, some placeholder span failed to
resolve, the error wraps that span's originating path error, and the
message names the placeholder with its path trimmed of whitespace; and
when it returns a string, every placeholder span resolved and the string
is the fully substituted text — no partially substituted string is ever
returned. -/
theorem claim4_substitution_all_or_nothing (d : Value) (text : String) :
    ((∀ inner, Item.ph inner ∈ tokenize text.data →
        (getNested d ⟨stripChars inner⟩).isOk = true) →
      replaceText text d = .ok ⟨renderItems d (tokenize text.data)⟩)
    ∧ (∀ e, replaceText text d = .error e →
        (∃ inner, Item.ph inner ∈ tokenize text.data
          ∧ getNested d ⟨stripChars inner⟩ = .error e.inner
          ∧ e.keyPath = ⟨stripChars inner⟩)
        ∧ containsSeq ('\x7b' :: '\x7b' :: (e.keyPath.data ++ ['\x7d', '\x7d']))
            (e.msg).data = true)
    ∧ (∀ out, replaceText text d = .ok out →
        (∀ inner, Item.ph inner ∈ tokenize text.data →
          (getNested d ⟨stripChars inner⟩).isOk = true)
        ∧ out = ⟨renderItems d (tokenize text.data)⟩) := by
  refine ⟨?_, ?_, ?_⟩
  · intro h
    unfold replaceText
    rw [processItemsOk d (tokenize text.data) h]
  · intro e h
    have herr : processItems d (tokenize text.data) = .error e := by
      unfold replaceText at h
      cases hp : processItems d (tokenize text.data) with
      | ok out => rw [hp] at h; exact absurd h (by simp)
      | error e2 => rw [hp] at h; simp only [Except.error.injEq] at h; rw [h]
    refine ⟨processItemsErr d _ e herr, ?_⟩
    have hmsg : (e.msg).data
        = "Failed to replace placeholder '".data
          ++ (('\x7b' :: '\x7b' :: (e.keyPath.data ++ ['\x7d', '\x7d']))
            ++ ("': ".data ++ (e.inner.msg).data)) := by
      simp [SubErr.msg, String.data_append, List.append_assoc]
    rw [hmsg]
    exact containsSeqAppend _ _ _
  · intro out h
    have hok : processItems d (tokenize text.data) = .ok out.data := by
      unfold replaceText at h
      cases hp : processItems d (tokenize text.data) with
      | error e2 => rw [hp] at h; exact absurd h (by simp)
      | ok l =>
        rw [hp] at h
        simp only [Except.ok.injEq] at h
        rw [← h]
    have hres := processItemsOkInv d (tokenize text.data) out.data hok
    refine ⟨hres, ?_⟩
    have h2 := processItemsOk d (tokenize text.data) hres
    rw [hok] at h2
    simp only [Except.ok.injEq] at h2
    rw [show out = ⟨out.data⟩ from rfl, h2]

/-- Witness for C4 amended at a text whose single placeholder resolves. -/
theorem claim4_witness :
    replaceText "\x7b\x7b name \x7d\x7d" (.dict [("name", .str "World")]) = .ok "World" :=
  (claim4_substitution_all_or_nothing (.dict [("name", .str "World")])
    "\x7b\x7b name \x7d\x7d").1
    (by
      intro inner hm
      rw [show tokenize "\x7b\x7b name \x7d\x7d".data
          = [Item.ph [' ', 'n', 'a', 'm', 'e', ' ']] from rfl] at hm
      rcases List.mem_singleton.mp hm with h
      rcases Item.ph.inj h with rfl
      rfl)

/-- C7: when substitution of one paragraph's concatenated text fails, only
that paragraph is skipped — its original runs are left untouched — and the
remaining paragraphs of the slide are processed normally. -/
theorem claim7_skip_failed_paragraph (d : Value) (ps1 ps2 : List Para) (p : Para)
    (hbr1 : containsSeq "\x7b\x7b".data (paraTextChars p) = true)
    (hbr2 : containsSeq "\x7d\x7d".data (paraTextChars p) = true)
    (e : SubErr) (hfail : replaceText ⟨paraTextChars p⟩ d = .error e) :
    replaceSlide d [Shape.text (ps1 ++ p :: ps2)]
      = [Shape.text (ps1.map (processParagraph d)
          ++ p :: ps2.map (processParagraph d))]
    ∧ processParagraph d p = p := by
  have hp : processParagraph d p = p := by
    have hbr1a : containsSeq ['\x7b', '\x7b'] (paraTextChars p) = true := hbr1
    have hbr2a : containsSeq ['\x7d', '\x7d'] (paraTextChars p) = true := hbr2
    simp only [processParagraph]
    rw [hbr1a, hbr2a]
    rw [if_neg (by decide)]
    rw [hfail]
  refine ⟨?_, hp⟩
  simp [replaceSlide, List.map_append, List.map_cons, hp]

/-- Witness for C7: the paragraph with an unresolvable placeholder keeps its
run, while the sibling paragraph is substituted. -/
theorem claim7_witness :
    replaceSlide (.dict [("name", .str "Bob")])
      [Shape.text
        [[⟨"\x7b\x7b missing \x7d\x7d", some "Calibri", none, none, none, none, none, none⟩],
         [⟨"Hi \x7b\x7b name \x7d\x7d", some "Calibri", none, none, none, none, none, none⟩]]]
      = [Shape.text
        [[⟨"\x7b\x7b missing \x7d\x7d", some "Calibri", none, none, none, none, none, none⟩],
         [⟨"Hi Bob", some "Calibri", none, none, none, none, none, none⟩]]] := by
  have h := (claim7_skip_failed_paragraph (.dict [("name", .str "Bob")]) []
    [[⟨"Hi \x7b\x7b name \x7d\x7d", some "Calibri", none, none, none, none, none, none⟩]]
    [⟨"\x7b\x7b missing \x7d\x7d", some "Calibri", none, none, none, none, none, none⟩]
    rfl rfl ⟨"missing", .keyNotFound "missing" "missing"⟩ rfl).1
  exact h

theorem processGoExceeds (pick : List String → String) (template : List Slide) :
    ∀ (cfgs : List SlideCfg) (i base : Nat) (cfg : SlideCfg) (sp : Int),
      cfgs[i]? = some cfg → cfg.srcPage = some sp → 1 ≤ sp →
      (template.length : Int) < sp →
      (∀ j, j < i → ∃ cfgj spj, cfgs[j]? = some cfgj ∧ cfgj.srcPage = some spj
        ∧ 1 ≤ spj ∧ spj ≤ (template.length : Int)) →
      processGo pick template base cfgs
        = .error (.srcPageExceeds sp (base + i) template.length)
  | [], i, base, cfg, sp, hget, _, _, _, _ => by simp at hget
  | c0 :: rest, 0, base, cfg, sp, hget, hsp, hpos, hex, _ => by
    rw [List.getElem?_cons_zero, Option.some.injEq] at hget
    subst hget
    simp only [processGo, hsp]
    rw [if_neg (by omega), if_pos hex, Nat.add_zero]
  | c0 :: rest, i2 + 1, base, cfg, sp, hget, hsp, hpos, hex, hvalid => by
    obtain ⟨cfg0, sp0, hg0, hsp0, h1sp0, hle0⟩ := hvalid 0 (Nat.succ_pos i2)
    rw [List.getElem?_cons_zero, Option.some.injEq] at hg0
    subst hg0
    rw [List.getElem?_cons_succ] at hget
    have ih := processGoExceeds pick template rest i2 (base + 1) cfg sp hget hsp hpos hex
      (fun j hj => by
        obtain ⟨cfgj, spj, hgj, hspj, h1j, hlej⟩ := hvalid (j + 1) (Nat.succ_lt_succ hj)
        rw [List.getElem?_cons_succ] at hgj
        exact ⟨cfgj, spj, hgj, hspj, h1j, hlej⟩)
    simp only [processGo, hsp0]
    rw [if_neg (by omega), if_neg (by omega), ih]
    show Except.error (TErr.srcPageExceeds sp (base + 1 + i2) template.length) = _
    rw [show base + 1 + i2 = base + (i2 + 1) from by omega]

/-- C6: a slide-configuration entry whose src_page exceeds the template's
slide count makes process fail with a configuration error whose message
mentions both the requested page and the available slide count, and no
output is produced: the output value exists only when every entry
succeeds. -/
theorem claim6_src_page_exceeds (pick : List String → String)
    (template : List Slide) (cfgs : List SlideCfg) (i : Nat)
    (cfg : SlideCfg) (sp : Int)
    (hget : cfgs[i]? = some cfg) (hsp : cfg.srcPage = some sp)
    (hpos : 1 ≤ sp) (hex : (template.length : Int) < sp)
    (hvalid : ∀ j, j < i → ∃ cfgj spj, cfgs[j]? = some cfgj
      ∧ cfgj.srcPage = some spj ∧ 1 ≤ spj ∧ spj ≤ (template.length : Int)) :
    process pick template cfgs = .error (.srcPageExceeds sp i template.length)
    ∧ containsSeq (toString sp).data
        ((TErr.srcPageExceeds sp i template.length).msg).data = true
    ∧ containsSeq (toString template.length).data
        ((TErr.srcPageExceeds sp i template.length).msg).data = true := by
  refine ⟨?_, ?_, ?_⟩
  · have h := processGoExceeds pick template cfgs i 0 cfg sp hget hsp hpos hex hvalid
    rw [Nat.zero_add] at h
    exact h
  · have hm1 : ((TErr.srcPageExceeds sp i template.length).msg).data
        = "src_page ".data ++ ((toString sp).data
          ++ (" at index " ++ toString i ++ " exceeds template slides count ("
              ++ toString template.length ++ ")").data) := by
      simp [TErr.msg, String.data_append, List.append_assoc]
    rw [hm1]
    exact containsSeqAppend _ _ _
  · have hm2 : ((TErr.srcPageExceeds sp i template.length).msg).data
        = ("src_page " ++ toString sp ++ " at index " ++ toString i
            ++ " exceeds template slides count (").data
          ++ ((toString template.length).data ++ ")".data) := by
      simp [TErr.msg, String.data_append, List.append_assoc]
    rw [hm2]
    exact containsSeqAppend _ _ _

/-- Witness for C6: src_page 10 against a 3-slide template. -/
theorem claim6_witness :
    process (fun l => l.headD "Meiryo UI") [[], [], []] [⟨some 10, .dict []⟩]
      = .error (.srcPageExceeds 10 0 3) :=
  (claim6_src_page_exceeds (fun l => l.headD "Meiryo UI") [[], [], []]
    [⟨some 10, .dict []⟩] 0 ⟨some 10, .dict []⟩ 10
    rfl rfl (by decide) (by decide)
    (fun j hj => absurd hj (Nat.not_lt_zero j))).1

/-- Number of font-bearing runs of the slide carrying the given font name,
used to compare frequencies of defined fonts. -/
def fontOccurrences (sl : Slide) (f : String) : Nat :=
  ((slideRuns sl).filter (fun r => fontBearing r && (r.fontName == some f))).length

/-- C8 counterexample: the slide default font is an arbitrary element of the
set of defined fonts (CPython set.pop), not the most common one.  Under the
admissible choice that takes the first collected element, a paragraph with
no qualifying run is assigned the font B seen once, although A occurs twice
on the slide. -/
theorem claim8_counterexample :
    (∀ l : List String, l ≠ [] → l.headD "Meiryo UI" ∈ l)
    ∧ normalizeFonts (fun l => l.headD "Meiryo UI")
        [Shape.text
          [[⟨"x", some "B", none, none, none, none, none, none⟩],
           [⟨"y", some "A", none, none, none, none, none, none⟩],
           [⟨"z", some "A", none, none, none, none, none, none⟩],
           [⟨"w", none, none, none, none, none, none, none⟩]]]
      = [Shape.text
          [[⟨"x", some "B", none, none, none, none, none, none⟩],
           [⟨"y", some "A", none, none, none, none, none, none⟩],
           [⟨"z", some "A", none, none, none, none, none, none⟩],
           [⟨"w", some "B", none, none, none, none, none, none⟩]]]
    ∧ fontOccurrences
        [Shape.text
          [[⟨"x", some "B", none, none, none, none, none, none⟩],
           [⟨"y", some "A", none, none, none, none, none, none⟩],
           [⟨"z", some "A", none, none, none, none, none, none⟩],
           [⟨"w", none, none, none, none, none, none, none⟩]]] "A" = 2
    ∧ fontOccurrences
        [Shape.text
          [[⟨"x", some "B", none, none, none, none, none, none⟩],
           [⟨"y", some "A", none, none, none, none, none, none⟩],
           [⟨"z", some "A", none, none, none, none, none, none⟩],
           [⟨"w", none, none, none, none, none, none, none⟩]]] "B" = 1
    ∧ ("B" : String) ≠ "A" := by
  refine ⟨?_, rfl, rfl, rfl, by decide⟩
  intro l h
  cases l with
  | nil => exact absurd rfl h
  | cons a t => simp [List.headD]

/-- C8 amended: in the font-normalization pass, whitespace-only paragraphs
are left alone; in any other paragraph every run ends up with a font name;
a run with an unset font name is assigned the font of the first run in the
paragraph with a defined font name and non-empty text; and when no such run
exists the slide default is used, which is some defined font name of the
slide chosen by set.pop (modelled by any admissible choice function), or
the fixed fallback Meiryo UI when the slide defines no fonts. -/
theorem claim8_font_normalization (pick : List String → String)
    (hpick : ∀ l, l ≠ [] → pick l ∈ l) (sl : Slide) :
    (normalizeFonts pick sl = sl.map (fun sh =>
        match sh with
        | .text paras => .text (paras.map (normPara
            (if (definedFonts sl).isEmpty then "Meiryo UI"
             else pick (definedFonts sl))))
        | .plain => .plain))
    ∧ ((definedFonts sl).isEmpty = false →
        (if (definedFonts sl).isEmpty then "Meiryo UI" else pick (definedFonts sl))
          ∈ definedFonts sl)
    ∧ ((definedFonts sl).isEmpty = true →
        (if (definedFonts sl).isEmpty then "Meiryo UI" else pick (definedFonts sl))
          = "Meiryo UI")
    ∧ ∀ (dflt : String) (runs : Para),
        ((stripChars (paraTextChars runs)).isEmpty = true →
          normPara dflt runs = runs)
        ∧ ((stripChars (paraTextChars runs)).isEmpty = false →
            ∀ r ∈ normPara dflt runs, r.fontName ≠ none)
        ∧ (∀ r0, runs.find? fontBearing = some r0 →
            (stripChars (paraTextChars runs)).isEmpty = false →
            ∀ r ∈ runs, r.fontName = none →
              (⟨r.text, r0.fontName, r.fontSize, r.fontBold, r.fontItalic,
                r.fontUnderline, r.colorType, r.colorRgb⟩ : Run)
                ∈ normPara dflt runs) := by
  refine ⟨rfl, ?_, ?_, ?_⟩
  · intro h
    rw [if_neg (by simp [h])]
    refine hpick _ ?_
    intro hnil
    rw [hnil] at h
    exact absurd h (by decide)
  · intro h
    rw [if_pos h]
  · intro dflt runs
    refine ⟨?_, ?_, ?_⟩
    · intro h
      simp only [normPara, h, if_true]
    · intro h r hr
      simp only [normPara, h, Bool.false_eq_true, if_false] at hr
      rcases List.mem_map.mp hr with ⟨r2, hr2, rfl⟩
      by_cases hn : r2.fontName.isNone = true
      · simp only [hn, if_true]
        exact Option.some_ne_none _
      · simp only [hn, Bool.false_eq_true, if_false]
        intro hcon
        rw [hcon] at hn
        exact hn rfl
    · intro r0 h0 hblank r hr hnone
      have hbear : fontBearing r0 = true := List.find?_some h0
      have hsome : r0.fontName.isSome = true := by
        simp only [fontBearing, Bool.and_eq_true] at hbear
        exact hbear.2
      obtain ⟨f0, hf0⟩ := Option.isSome_iff_exists.mp hsome
      simp only [normPara, hblank, Bool.false_eq_true, if_false, h0]
      refine List.mem_map.mpr ⟨r, hr, ?_⟩
      rw [show r.fontName.isNone = true from by rw [hnone]; rfl, if_pos rfl]
      rw [hf0]
      rfl

/-- Witness for C8 amended: a slide with one defined font, where the
bare-font run in the second paragraph inherits the slide default. -/
theorem claim8_witness :
    normalizeFonts (fun l => l.headD "Meiryo UI")
      [Shape.text [[⟨"x", some "Arial", none, none, none, none, none, none⟩],
                   [⟨"w", none, none, none, none, none, none, none⟩]]]
      = [Shape.text
          [[⟨"x", some "Arial", none, none, none, none, none, none⟩],
           [⟨"w", some "Arial", none, none, none, none, none, none⟩]]]
    ∧ ("Arial" : String) ∈ definedFonts
        [Shape.text [[⟨"x", some "Arial", none, none, none, none, none, none⟩],
                     [⟨"w", none, none, none, none, none, none, none⟩]]] := by
  constructor
  · rfl
  · have h := (claim8_font_normalization (fun l => l.headD "Meiryo UI")
      (by
        intro l hl
        cases l with
        | nil => exact absurd rfl hl
        | cons a t => simp [List.headD])
      [Shape.text [[⟨"x", some "Arial", none, none, none, none, none, none⟩],
                   [⟨"w", none, none, none, none, none, none, none⟩]]]).2.1 rfl
    simpa using h

end PPTX
